import Mathlib

set_option maxRecDepth 8192

/-!
Shallow embedding of the procedural terrain / chunk-streaming core of
`python_code.py` (class `ProceduralWorld` together with the module-level
streaming loop `update_chunks` / `get_chunk`).

Modelling conventions:
* Python dicts (`biome_map`, `loaded_chunks`, `noise_cache`) become
  association lists with insertion-order semantics: assignment to an
  existing key replaces the entry in place, assignment to a fresh key
  appends, `del` removes the entry.
* Python floats become `ℚ`.  The external inputs (the opensimplex noise
  function, `random.random`, `random.randint`, Python's `hash` of a seed
  point) are parameters of the model, collected in a `Ctx`; the random
  streams are consumed through ghost cursors `uidx` / `iidx` stored in
  the world state.
* Ursina `Entity` objects live in a ghost arena (`World.arena`); an
  entity handle is its arena index.  Creating an `Entity()` appends a
  record with ursina's defaults (in particular `enabled := true`);
  attribute assignment updates the record in place.  The source never
  calls `destroy`, so records are never removed.  The RGB constants
  stand in for ursina's named colors; no claim depends on their values.
* `EntityRec.origin` is a ghost provenance tag (ground cell handle vs
  tree trunk vs tree foliage) and `World.log` is a ghost log of the
  noise-cache misses (each underlying noise invocation made by
  `get_noise`); neither influences any computation.
* `math.dist` takes a square root; since `Real.sqrt` is strictly
  monotone on squared distances, `min(points, key=math.dist ...)`
  selects exactly the point selected by comparing squared distances
  (ties resolved the same way, by iteration order), which is how
  `closestPoint` is written.
-/

namespace MineKrugger

/-- Association-list lookup, first matching key (Python dict lookup). -/
def assocGet {κ α : Type} [DecidableEq κ] (k : κ) : List (κ × α) → Option α
  | [] => none
  | e :: es => if e.1 = k then some e.2 else assocGet k es

/-- Python `k in d`. -/
def containsKey {κ α : Type} [DecidableEq κ] (k : κ) (l : List (κ × α)) : Bool :=
  (assocGet k l).isSome

/-- Python `d.get(k, dflt)`. -/
def lookupD {κ α : Type} [DecidableEq κ] (k : κ) (l : List (κ × α)) (dflt : α) : α :=
  (assocGet k l).getD dflt

/-- Python `d[k] = v`: replace in place if the key is present, else append. -/
def assocUpd {κ α : Type} [DecidableEq κ] (k : κ) (v : α) : List (κ × α) → List (κ × α)
  | [] => [(k, v)]
  | e :: es => if e.1 = k then (k, v) :: es else e :: assocUpd k v es

/-- Python `del d[k]` (keys are unique in a dict, so removing every match). -/
def assocDel {κ α : Type} [DecidableEq κ] (k : κ) : List (κ × α) → List (κ × α)
  | [] => []
  | e :: es => if e.1 = k then assocDel k es else e :: assocDel k es

/-- Python `list(d.keys())`. -/
def keysOf {κ α : Type} (l : List (κ × α)) : List κ :=
  l.map (·.1)

/-- The external collaborators of the core: the coherent-noise function
(`opensimplex.noise2`), the uniform random stream (`random.random`, values
expected in `[0,1)`), the integer random stream backing `random.randint`,
and Python's `hash` on seed points. -/
structure Ctx where
  ν : ℚ → ℚ → ℚ
  uni : ℕ → ℚ
  rint : ℕ → ℕ
  phash : ℚ × ℚ → ℕ

/-- Renderable model kinds used by the source (`'cube'`, `'sphere'`). -/
inductive EModel : Type
  | cube
  | sphere
deriving DecidableEq

/-- Collider kinds used by the source (`'box'`). -/
inductive ColliderKind : Type
  | box
deriving DecidableEq

/-- Ghost provenance of an entity: pooled ground-cell handle, tree trunk,
or tree foliage. -/
inductive Origin : Type
  | ground
  | trunk
  | foliage
deriving DecidableEq

/-- RGB color as rationals; stands in for ursina color values. -/
abbrev Color : Type := ℚ × ℚ × ℚ

def white : Color := (1, 1, 1)
def green : Color := (0, 1, 0)
def lime : Color := (199/255, 1, 0)
def orange : Color := (1, 162/255, 0)
def yellow : Color := (1, 1, 0)
def gray : Color := (1/2, 1/2, 1/2)
def blue : Color := (0, 0, 1)
def cyan : Color := (0, 1, 1)
def brown : Color := (165/255, 42/255, 42/255)

/-- Ursina `lerp(a, b, t) = a + (b - a) * t`, componentwise, unclamped. -/
def lerpC (a b : Color) (t : ℚ) : Color :=
  (a.1 + (b.1 - a.1) * t, a.2.1 + (b.2.1 - a.2.1) * t, a.2.2 + (b.2.2 - a.2.2) * t)

/-- The observable state of one ursina entity, plus the ghost `origin`. -/
structure EntityRec where
  emodel : Option EModel
  position : ℚ × ℚ × ℚ
  ecolor : Color
  scale : ℚ × ℚ × ℚ
  collider : Option ColliderKind
  enabled : Bool
  origin : Origin
deriving DecidableEq

/-- A freshly constructed `Entity()` with ursina's defaults (visible,
no model, no collider). -/
def defaultEntity : EntityRec :=
  { emodel := none
    position := (0, 0, 0)
    ecolor := white
    scale := (1, 1, 1)
    collider := none
    enabled := true
    origin := Origin.ground }

/-- The mutable state of a `ProceduralWorld` plus the ghost entity arena,
noise-invocation log and random-stream cursors. -/
structure World where
  biome_map : List ((ℤ × ℤ) × ℕ)
  loaded_chunks : List ((ℤ × ℤ) × List ℕ)
  chunk_pool : List ℕ
  noise_cache : List ((ℤ × ℤ) × ℚ)
  arena : List EntityRec
  log : List (ℤ × ℤ)
  uidx : ℕ
  iidx : ℕ
deriving DecidableEq

/-- A world with every container empty; used as a base point for theorems. -/
def World.empty : World :=
  { biome_map := []
    loaded_chunks := []
    chunk_pool := []
    noise_cache := []
    arena := []
    log := []
    uidx := 0
    iidx := 0 }

/-- `random.uniform a b = a + (b - a) * random.random()`. -/
def uniformQ (a b u : ℚ) : ℚ := a + (b - a) * u

/-- The eight biome seed points: `[(random.uniform(-16, 16), random.uniform(-16, 16)) for _ in range(8)]`. -/
def biomePoints (ctx : Ctx) : List (ℚ × ℚ) :=
  (List.range 8).map fun i =>
    (uniformQ (-16) 16 (ctx.uni (2 * i)), uniformQ (-16) 16 (ctx.uni (2 * i + 1)))

/-- Squared Euclidean distance from an integer cell to a seed point. -/
def dist2 (a : ℤ × ℤ) (p : ℚ × ℚ) : ℚ :=
  ((a.1 : ℚ) - p.1) ^ 2 + ((a.2 : ℚ) - p.2) ^ 2

/-- Python `min(points, key=lambda p: math.dist((x, z), p))`: scan left to
right keeping the first point of strictly least distance.  Comparing squared
distances selects the same point as comparing `math.dist` values. -/
def closestFold (a : ℤ × ℤ) (ps : List (ℚ × ℚ)) (best : ℚ × ℚ) : ℚ × ℚ :=
  ps.foldl (fun b p => if dist2 a p < dist2 a b then p else b) best

def closestPoint (a : ℤ × ℤ) : List (ℚ × ℚ) → ℚ × ℚ
  | [] => (0, 0)
  | p :: ps => closestFold a ps p

/-- The integer list `[a, a+1, ..., a+n-1]` (Python `range(a, a+n)`). -/
def intRangeL (a : ℤ) (n : ℕ) : List ℤ :=
  (List.range n).map fun i : ℕ => a + (i : ℤ)

/-- `ProceduralWorld.generate_biome_map`: for every coarse cell in
`range(-32, 32) × range(-32, 32)` assign `hash(closest) % 4`. -/
def generate_biome_map (ctx : Ctx) : List ((ℤ × ℤ) × ℕ) :=
  let pts := biomePoints ctx
  (intRangeL (-32) 64).flatMap fun x =>
    (intRangeL (-32) 64).map fun z =>
      ((x, z), ctx.phash (closestPoint (x, z) pts) % 4)

/-- `ProceduralWorld.__init__`: empty containers, then `generate_biome_map`
(which consumes uniform draws 0..15 for the eight seed points). -/
def initWorld (ctx : Ctx) : World :=
  { World.empty with biome_map := generate_biome_map ctx, uidx := 16 }

/-- The value `get_noise` computes on a cache miss:
`opensimplex.noise2(x / 20, z / 20) * 4`. -/
def pureHeight (ctx : Ctx) (x z : ℤ) : ℚ :=
  ctx.ν ((x : ℚ) / 20) ((z : ℚ) / 20) * 4

/-- The uncached detail sample of `generate_chunk`:
`opensimplex.noise2(wx * 3, wz * 3) * 0.5`. -/
def detailNoise (ctx : Ctx) (x z : ℤ) : ℚ :=
  ctx.ν ((x : ℚ) * 3) ((z : ℚ) * 3) * (1/2)

/-- `ProceduralWorld.get_noise`: memoized `opensimplex.noise2(x/20, z/20) * 4`.
Returns the value and the updated world; a cache miss is recorded in the
ghost `log`. -/
def get_noise (ctx : Ctx) (x z : ℤ) (w : World) : ℚ × World :=
  let w :=
    if containsKey (x, z) w.noise_cache then w
    else { w with
            noise_cache := assocUpd (x, z) (ctx.ν ((x : ℚ) / 20) ((z : ℚ) / 20) * 4) w.noise_cache
            log := w.log ++ [(x, z)] }
  (lookupD (x, z) w.noise_cache 0, w)

/-- `ProceduralWorld.get_chunk_entity`: pop the last pooled handle if the
pool is non-empty, else allocate a fresh `Entity()`. -/
def get_chunk_entity (w : World) : ℕ × World :=
  match w.chunk_pool.getLast? with
  | some e => (e, { w with chunk_pool := w.chunk_pool.dropLast })
  | none => (w.arena.length, { w with arena := w.arena ++ [defaultEntity] })

/-- `ProceduralWorld.get_biome_color`: the biome's two color endpoints
interpolated by `y / 5`, defaulting to white. -/
def get_biome_color (biome : ℕ) (y : ℚ) : Color :=
  if biome = 0 then lerpC green lime (y / 5)
  else if biome = 1 then lerpC orange yellow (y / 5)
  else if biome = 2 then lerpC gray white (y / 5)
  else if biome = 3 then lerpC blue cyan (y / 5)
  else white

/-- The trunk entity of a procedural tree:
`Entity(model='cube', position=(x, y, z), color=color.brown, collider='box', scale=(0.5, height, 0.5))`. -/
def trunkRec (x y z : ℚ) (h : ℕ) : EntityRec :=
  { emodel := some EModel.cube
    position := (x, y, z)
    ecolor := brown
    scale := (1/2, (h : ℚ), 1/2)
    collider := some ColliderKind.box
    enabled := true
    origin := Origin.trunk }

/-- The level-`i` foliage entity of a procedural tree:
`Entity(model='sphere', position=(x, y + height - i, z), color=lerp(green, lime, i/height), scale=2 - i/height)`. -/
def foliageRec (x y z : ℚ) (h i : ℕ) : EntityRec :=
  { emodel := some EModel.sphere
    position := (x, y + ((h : ℚ) - (i : ℚ)), z)
    ecolor := lerpC green lime ((i : ℚ) / (h : ℚ))
    scale := (2 - (i : ℚ) / (h : ℚ), 2 - (i : ℚ) / (h : ℚ), 2 - (i : ℚ) / (h : ℚ))
    collider := none
    enabled := true
    origin := Origin.foliage }

/-- `ProceduralWorld.generate_procedural_tree`: draw a random trunk height
in `[3, 6]` (consuming the integer random stream), create the trunk, then
one foliage sphere per level (`for i in range(height)`).  The entities are
created directly (not pooled) and never recorded anywhere. -/
def generate_procedural_tree (ctx : Ctx) (x y z : ℚ) (w : World) : World :=
  let h := 3 + ctx.rint w.iidx % 4
  (List.range h).foldl
    (fun w2 i => { w2 with arena := w2.arena ++ [foliageRec x y z h i] })
    { w with iidx := w.iidx + 1, arena := w.arena ++ [trunkRec x y z h] }

/-- The body of the double loop of `generate_chunk` for one local cell
`(x, z)`: sample the biome and the (cached) height plus uncached detail
noise, configure one pooled handle as the ground block, and possibly spawn
a tree (the random draw is only consumed when `y > 2`, mirroring Python's
short-circuit `and`). -/
def cellStep (ctx : Ctx) (cp : ℤ × ℤ) (st : World × List ℕ) (c : ℕ × ℕ) : World × List ℕ :=
  let w := st.1
  let wx : ℤ := cp.1 * 16 + (c.1 : ℤ)
  let wz : ℤ := cp.2 * 16 + (c.2 : ℤ)
  let biome := lookupD (Int.fdiv wx 4, Int.fdiv wz 4) w.biome_map 0
  let hw := get_noise ctx wx wz w
  let height := hw.1
  let w := hw.2
  let detail := detailNoise ctx wx wz
  let y := height + detail
  let col := get_biome_color biome y
  let ew := get_chunk_entity w
  let e := ew.1
  let w := ew.2
  let cfg : EntityRec :=
    { (w.arena.getD e defaultEntity) with
        emodel := some EModel.cube
        position := ((wx : ℚ), y, (wz : ℚ))
        ecolor := col
        scale := (1, 1, 1)
        collider := if y ≤ 2 then some ColliderKind.box else none
        origin := Origin.ground }
  let w := { w with arena := w.arena.set e cfg }
  let acc := st.2 ++ [e]
  if 2 < y then
    let u := ctx.uni w.uidx
    let w := { w with uidx := w.uidx + 1 }
    if u < 1/10 then (generate_procedural_tree ctx (wx : ℚ) (y + 1) (wz : ℚ) w, acc)
    else (w, acc)
  else (w, acc)

/-- The `16 × 16` local cells of a chunk in loop order
(`for x in range(16): for z in range(16)`). -/
def cellList : List (ℕ × ℕ) :=
  (List.range 16).flatMap fun x => (List.range 16).map fun z => (x, z)

/-- `ProceduralWorld.generate_chunk`: build all ground blocks (and trees),
then store the handle list under `chunk_pos` in `loaded_chunks`. -/
def generate_chunk (ctx : Ctx) (cp : ℤ × ℤ) (w : World) : World :=
  let st := cellList.foldl (cellStep ctx cp) (w, [])
  { st.1 with loaded_chunks := assocUpd cp st.2 st.1.loaded_chunks }

/-- `ProceduralWorld.unload_chunk`: if the chunk is loaded, disable each of
its handles (instead of destroying) and append it to the pool, then remove
the chunk from `loaded_chunks`; otherwise do nothing. -/
def unload_chunk (cp : ℤ × ℤ) (w : World) : World :=
  if containsKey cp w.loaded_chunks then
    let l := lookupD cp w.loaded_chunks []
    let w := l.foldl
      (fun w e =>
        { w with
            arena := w.arena.set e { (w.arena.getD e defaultEntity) with enabled := false }
            chunk_pool := w.chunk_pool ++ [e] })
      w
    { w with loaded_chunks := assocDel cp w.loaded_chunks }
  else w

/-- Module-level `get_chunk`: the chunk coordinate of a world position
(`chunk_size = 16`; float floor division). -/
def get_chunk (pos : ℚ × ℚ × ℚ) : ℤ × ℤ :=
  (Int.floor (pos.1 / 16), Int.floor (pos.2.2 / 16))

/-- The chunk coordinates visited by the loading loops of `update_chunks`
(`render_distance = 4`): a 9 × 9 square window around the player chunk,
`cx` outer, `cz` inner. -/
def winList (pc : ℤ × ℤ) : List (ℤ × ℤ) :=
  (intRangeL (pc.1 - 4) 9).flatMap fun cx =>
    (intRangeL (pc.2 - 4) 9).map fun cz => (cx, cz)

/-- The unload condition of `update_chunks`:
`abs(cx - px) > render_distance or abs(cz - pz) > render_distance`. -/
def farChunk (c pc : ℤ × ℤ) : Bool :=
  decide (4 < (c.1 - pc.1).natAbs) || decide (4 < (c.2 - pc.2).natAbs)

/-- Module-level `update_chunks`: generate every missing chunk in the
window around the player chunk, then unload every loaded chunk that is too
far away (iterating over a snapshot of the keys). -/
def update_chunks (ctx : Ctx) (pos : ℚ × ℚ × ℚ) (w : World) : World :=
  let pc := get_chunk pos
  let w1 := (winList pc).foldl
    (fun w c => if containsKey c w.loaded_chunks then w else generate_chunk ctx c w) w
  (keysOf w1.loaded_chunks).foldl
    (fun w c => if farChunk c pc then unload_chunk c w else w) w1

/-! ### Derived observation functions -/

/-- The observable configuration a caller overwrites on a ground cell:
position, color, collider.  (The model and scale are also overwritten but
are the same constant for every ground cell; `enabled` is deliberately
not part of this tuple because `generate_chunk` never writes it.) -/
def obsConfig (r : EntityRec) : (ℚ × ℚ × ℚ) × Color × Option ColliderKind :=
  (r.position, r.ecolor, r.collider)

/-- Terrain height `y` of a world cell, assuming a coherent cache. -/
def pureY (ctx : Ctx) (x z : ℤ) : ℚ :=
  pureHeight ctx x z + detailNoise ctx x z

/-- The height value `get_noise` actually returns in world `w`. -/
def step_height (ctx : Ctx) (w : World) (x z : ℤ) : ℚ :=
  (assocGet (x, z) w.noise_cache).getD (pureHeight ctx x z)

/-- The `y` value `cellStep` actually uses in world `w`. -/
def step_y (ctx : Ctx) (w : World) (x z : ℤ) : ℚ :=
  step_height ctx w x z + detailNoise ctx x z

/-- Every cache entry holds the value the noise source would produce:
true of every reachable cache, since only `get_noise` writes it. -/
def coherentCache (ctx : Ctx) (cache : List ((ℤ × ℤ) × ℚ)) : Prop :=
  ∀ p ∈ cache, p.2 = pureHeight ctx p.1.1 p.1.2

/-- The configuration `generate_chunk` gives the ground cell of local
coordinates `c` of chunk `cp` (biome map `bm`, coherent cache). -/
def pureCellConfig (ctx : Ctx) (bm : List ((ℤ × ℤ) × ℕ)) (cp : ℤ × ℤ) (c : ℕ × ℕ) :
    (ℚ × ℚ × ℚ) × Color × Option ColliderKind :=
  let wx : ℤ := cp.1 * 16 + (c.1 : ℤ)
  let wz : ℤ := cp.2 * 16 + (c.2 : ℤ)
  let y := pureY ctx wx wz
  (((wx : ℚ), y, (wz : ℚ)),
   get_biome_color (lookupD (Int.fdiv wx 4, Int.fdiv wz 4) bm 0) y,
   if y ≤ 2 then some ColliderKind.box else none)

/-- The collider rule as a property of a single entity record: a box
collider exactly when the stored height is at most `2`. -/
def colliderOk (r : EntityRec) : Prop :=
  r.collider = some ColliderKind.box ↔ r.position.2.1 ≤ 2

/-- Arena indices currently holding ground-cell handles (the handles ever
created by `get_chunk_entity`, under the reachability invariant). -/
def groundIds (w : World) : List ℕ :=
  (List.range w.arena.length).filter fun i =>
    decide ((w.arena.getD i defaultEntity).origin = Origin.ground)

/-- Number of tree-primitive entities (trunks and foliage) in an arena. -/
def treeCount (a : List EntityRec) : ℕ :=
  (a.filter fun r => decide (r.origin ≠ Origin.ground)).length

/-- The pool-conservation equation of the spec: pool size plus the count
of handles across all loaded chunks equals the number of ground-cell
handles ever created. -/
def conservationEq (w : World) : Prop :=
  w.chunk_pool.length + (w.loaded_chunks.map fun e => e.2.length).sum = (groundIds w).length

/-- A generate/unload call, for reasoning about arbitrary call sequences. -/
inductive Op : Type
  | gen : ℤ × ℤ → Op
  | unl : ℤ × ℤ → Op
deriving DecidableEq

/-- Apply one generate/unload call. -/
def applyOp (ctx : Ctx) (op : Op) (w : World) : World :=
  match op with
  | Op.gen cp => generate_chunk ctx cp w
  | Op.unl cp => unload_chunk cp w

/-- Run a sequence of generate/unload calls. -/
def runOps (ctx : Ctx) : List Op → World → World
  | [], w => w
  | op :: ops, w => runOps ctx ops (applyOp ctx op w)

/-- A call is safe when `generate_chunk` is only ever called on a
coordinate that is not currently loaded — exactly the discipline
`update_chunks` follows.  `unload_chunk` is always safe. -/
def safeOp (w : World) (op : Op) : Prop :=
  match op with
  | Op.gen cp => containsKey cp w.loaded_chunks = false
  | Op.unl _ => True

/-- Every call of the sequence is safe in the state it runs in. -/
def safeOps (ctx : Ctx) : World → List Op → Prop
  | _, [] => True
  | w, op :: ops => safeOp w op ∧ safeOps ctx (applyOp ctx op w) ops

/-- All ground-cell handles currently referenced by some loaded chunk. -/
def chunkHandles (w : World) : List ℕ :=
  (w.loaded_chunks.map (·.2)).flatten

/-- The reachable-state invariant of the handle system: the pool and the
loaded chunks' handle lists together are a permutation of the ground-cell
indices of the arena (so every handle ever created sits in exactly one
place — never both, never neither), the chunk keys are unique (Python
dict), every non-ground (tree) entity is enabled, and the noise cache is
coherent. -/
structure SInv (ctx : Ctx) (w : World) : Prop where
  part : (w.chunk_pool ++ chunkHandles w).Perm (groundIds w)
  keys_nodup : (keysOf w.loaded_chunks).Nodup
  trees_enabled : ∀ i < w.arena.length,
    (w.arena.getD i defaultEntity).origin ≠ Origin.ground →
    (w.arena.getD i defaultEntity).enabled = true
  coh : coherentCache ctx w.noise_cache

/-- The loading loop of `update_chunks`: generate every chunk of the
window that is not already loaded. -/
def genPass (ctx : Ctx) (cs : List (ℤ × ℤ)) (w : World) : World :=
  cs.foldl (fun w c => if containsKey c w.loaded_chunks then w else generate_chunk ctx c w) w

/-- The unloading loop of `update_chunks`: unload every chunk of the key
snapshot that is too far from the player chunk. -/
def unlPass (pc : ℤ × ℤ) (ks : List (ℤ × ℤ)) (w : World) : World :=
  ks.foldl (fun w c => if farChunk c pc then unload_chunk c w else w) w

/-- The record a ground-cell handle is configured to by `generate_chunk`
(every visual attribute overwritten; `enabled` untouched). -/
def groundCfg (_ctx : Ctx) (bm : List ((ℤ × ℤ) × ℕ)) (old : EntityRec) (wx wz : ℤ) (y : ℚ) :
    EntityRec :=
  { old with
      emodel := some EModel.cube
      position := ((wx : ℚ), y, (wz : ℚ))
      ecolor := get_biome_color (lookupD (Int.fdiv wx 4, Int.fdiv wz 4) bm 0) y
      scale := (1, 1, 1)
      collider := if y ≤ 2 then some ColliderKind.box else none
      origin := Origin.ground }

/-- The freshly created ground-handle indices between a base arena length
`n` and the current arena `a`. -/
def newGround (n : ℕ) (a : List EntityRec) : List ℕ :=
  (List.range' n (a.length - n)).filter fun i =>
    decide ((a.getD i defaultEntity).origin = Origin.ground)

/-- Well-formedness of a world as a base point for `generate_chunk`: the
pool holds distinct, valid, ground-origin handles, every tree primitive is
enabled, and the noise cache is coherent.  All of these hold for every
world reachable from `initWorld` by `generate`/`unload` calls. -/
structure BaseOk (ctx : Ctx) (w : World) : Prop where
  pool_nodup : w.chunk_pool.Nodup
  pool_lt : ∀ e ∈ w.chunk_pool, e < w.arena.length
  pool_ground : ∀ e ∈ w.chunk_pool, (w.arena.getD e defaultEntity).origin = Origin.ground
  base_trees_on : ∀ i < w.arena.length,
    (w.arena.getD i defaultEntity).origin ≠ Origin.ground →
    (w.arena.getD i defaultEntity).enabled = true
  base_coh : coherentCache ctx w.noise_cache

/-- The inductive invariant of the cell loop of `generate_chunk`, relating
the running state `st` (world and accumulated handle list) to the base
world `w` and the list `ps` of already-processed local cells. -/
structure GenInv (ctx : Ctx) (cp : ℤ × ℤ) (w : World) (ps : List (ℕ × ℕ))
    (st : World × List ℕ) : Prop where
  biome : st.1.biome_map = w.biome_map
  loaded : st.1.loaded_chunks = w.loaded_chunks
  coh : coherentCache ctx st.1.noise_cache
  pool_pre : ∃ t, st.1.chunk_pool ++ t = w.chunk_pool
  alen : w.arena.length ≤ st.1.arena.length
  acc_nodup : st.2.Nodup
  acc_lt : ∀ e ∈ st.2, e < st.1.arena.length
  pool_disj : ∀ e ∈ st.1.chunk_pool, e ∉ st.2
  configs : st.2.map (fun e => obsConfig (st.1.arena.getD e defaultEntity)) =
    ps.map (pureCellConfig ctx w.biome_map cp)
  acc_ground : ∀ e ∈ st.2, (st.1.arena.getD e defaultEntity).origin = Origin.ground
  perm : (st.1.chunk_pool ++ st.2).Perm (w.chunk_pool ++ newGround w.arena.length st.1.arena)
  old_orig : ∀ i < w.arena.length,
    (st.1.arena.getD i defaultEntity).origin = (w.arena.getD i defaultEntity).origin
  trees_on : ∀ i < st.1.arena.length,
    (st.1.arena.getD i defaultEntity).origin ≠ Origin.ground →
    (st.1.arena.getD i defaultEntity).enabled = true
  enabled_eq : ∀ e ∈ st.2,
    (st.1.arena.getD e defaultEntity).enabled =
      (if e < w.arena.length then (w.arena.getD e defaultEntity).enabled else true)
  coll : ∀ e ∈ st.2, colliderOk (st.1.arena.getD e defaultEntity)
  pool_count : st.1.chunk_pool = [] ∨
    st.2.length + st.1.chunk_pool.length = w.chunk_pool.length
  pool_mem : ∀ e ∈ w.chunk_pool, e ∈ st.1.chunk_pool ∨ e ∈ st.2
  pool_rec : ∀ e ∈ st.1.chunk_pool,
    st.1.arena.getD e defaultEntity = w.arena.getD e defaultEntity

/-- A sequence of cached height queries, one `get_noise` call per listed
world coordinate. -/
def runNoise (ctx : Ctx) : List (ℤ × ℤ) → World → World
  | [], w => w
  | q :: qs, w => runNoise ctx qs (get_noise ctx q.1 q.2 w).2

/-- A fixed context for witnesses: zero noise, zero random streams. -/
def ctx0 : Ctx :=
  { ν := fun _ _ => 0, uni := fun _ => 0, rint := fun _ => 0, phash := fun _ => 0 }

/-- A context whose noise is constant `5` (every cell is high ground) and
whose uniform stream is constant `0` (every tree draw succeeds). -/
def ctx1 : Ctx :=
  { ν := fun _ _ => 5, uni := fun _ => 0, rint := fun _ => 0, phash := fun _ => 0 }

/-- Whether a rational is reachable as one biome seed coordinate
(`random.uniform(-16, 16)` applied to a unit draw). -/
def seedCovers (v : ℚ) : Prop :=
  ∃ u : ℚ, 0 ≤ u ∧ u ≤ 1 ∧ uniformQ (-16) 16 u = v

/-- The cells of a chunk after the first one. -/
def cellTail : List (ℕ × ℕ) := cellList.tail

/-- A one-handle world whose pooled handle is disabled, exactly as
`unload_chunk` leaves a handle. -/
def w_c1 : World :=
  { World.empty with
      chunk_pool := [0]
      arena := [{ defaultEntity with enabled := false }] }

/-! ### Association-list lemmas -/

theorem assocGet_upd_self {κ α : Type} [DecidableEq κ] (k : κ) (v : α) (l : List (κ × α)) :
    assocGet k (assocUpd k v l) = some v := by
  induction l with
  | nil => simp [assocGet, assocUpd]
  | cons e es ih =>
    by_cases h : e.1 = k
    · simp [assocGet, assocUpd, h]
    · simp [assocGet, assocUpd, h, ih]

theorem assocGet_upd_ne {κ α : Type} [DecidableEq κ] {k k' : κ} (hne : k' ≠ k)
    (v : α) (l : List (κ × α)) : assocGet k' (assocUpd k v l) = assocGet k' l := by
  induction l with
  | nil => simp [assocGet, assocUpd, Ne.symm hne]
  | cons e es ih =>
    by_cases h : e.1 = k
    · rw [assocUpd, if_pos h]
      have hk : ¬ k = k' := fun hc => hne hc.symm
      have hk' : ¬ e.1 = k' := by rw [h]; exact hk
      rw [assocGet, assocGet, if_neg (show ¬ (k, v).1 = k' from hk), if_neg hk']
    · rw [assocUpd, if_neg h]
      by_cases h' : e.1 = k'
      · rw [assocGet, assocGet, if_pos h', if_pos h']
      · rw [assocGet, assocGet, if_neg h', if_neg h', ih]

theorem mem_of_assocGet_eq_some {κ α : Type} [DecidableEq κ] {k : κ} {v : α}
    {l : List (κ × α)} (h : assocGet k l = some v) : (k, v) ∈ l := by
  induction l with
  | nil => simp [assocGet] at h
  | cons e es ih =>
    rcases e with ⟨a, b⟩
    by_cases he : a = k
    · subst he
      simp [assocGet] at h
      subst h
      exact List.mem_cons_self _ _
    · simp [assocGet, he] at h
      exact List.mem_cons_of_mem _ (ih h)

theorem mem_assocUpd {κ α : Type} [DecidableEq κ] {k : κ} {v : α} {l : List (κ × α)}
    {p : κ × α} (h : p ∈ assocUpd k v l) : p = (k, v) ∨ p ∈ l := by
  induction l with
  | nil => simpa [assocUpd] using h
  | cons e es ih =>
    by_cases he : e.1 = k
    · rw [assocUpd, if_pos he] at h
      rcases List.mem_cons.1 h with h | h
      · exact Or.inl h
      · exact Or.inr (List.mem_cons_of_mem _ h)
    · rw [assocUpd, if_neg he] at h
      rcases List.mem_cons.1 h with h | h
      · exact Or.inr (by simp [h])
      · rcases ih h with h' | h'
        · exact Or.inl h'
        · exact Or.inr (List.mem_cons_of_mem _ h')

theorem keysOf_assocUpd {κ α : Type} [DecidableEq κ] (k k' : κ) (v : α) (l : List (κ × α)) :
    k' ∈ keysOf (assocUpd k v l) ↔ k' = k ∨ k' ∈ keysOf l := by
  induction l with
  | nil => simp [assocUpd, keysOf]
  | cons e es ih =>
    by_cases he : e.1 = k
    · rw [assocUpd, if_pos he]
      simp only [keysOf, List.map_cons, List.mem_cons, he]
      tauto
    · rw [assocUpd, if_neg he]
      simp only [keysOf, List.map_cons, List.mem_cons] at ih ⊢
      rw [ih]
      tauto

theorem assocUpd_of_not_mem_keys {κ α : Type} [DecidableEq κ] {k : κ} (v : α)
    {l : List (κ × α)} (h : k ∉ keysOf l) : assocUpd k v l = l ++ [(k, v)] := by
  induction l with
  | nil => simp [assocUpd]
  | cons e es ih =>
    simp only [keysOf, List.map_cons, List.mem_cons] at h
    push_neg at h
    rw [assocUpd, if_neg (fun he => h.1 he.symm), ih (by simpa [keysOf] using h.2)]
    simp

theorem assocGet_del_ne {κ α : Type} [DecidableEq κ] {k k' : κ} (hne : k' ≠ k)
    (l : List (κ × α)) : assocGet k' (assocDel k l) = assocGet k' l := by
  induction l with
  | nil => simp [assocDel]
  | cons e es ih =>
    by_cases h : e.1 = k
    · rw [assocDel, if_pos h, ih, assocGet, if_neg (h ▸ Ne.symm hne)]
    · rw [assocDel, if_neg h, assocGet, assocGet]
      by_cases h' : e.1 = k'
      · rw [if_pos h', if_pos h']
      · rw [if_neg h', if_neg h', ih]

theorem containsKey_del_self {κ α : Type} [DecidableEq κ] (k : κ) (l : List (κ × α)) :
    containsKey k (assocDel k l) = false := by
  induction l with
  | nil => simp [assocDel, containsKey, assocGet]
  | cons e es ih =>
    by_cases h : e.1 = k
    · rw [assocDel, if_pos h]
      exact ih
    · rw [assocDel, if_neg h, containsKey, assocGet, if_neg h]
      exact ih

theorem keysOf_del {κ α : Type} [DecidableEq κ] (k k' : κ) (l : List (κ × α)) :
    k' ∈ keysOf (assocDel k l) ↔ k' ∈ keysOf l ∧ k' ≠ k := by
  induction l with
  | nil => simp [assocDel, keysOf]
  | cons e es ih =>
    by_cases h : e.1 = k
    · rw [assocDel, if_pos h]
      simp only [keysOf, List.map_cons, List.mem_cons] at ih ⊢
      rw [ih]
      constructor
      · rintro ⟨hl, hr⟩
        exact ⟨Or.inr hl, hr⟩
      · rintro ⟨rfl | hl, hr⟩
        · exact absurd h hr
        · exact ⟨hl, hr⟩
    · rw [assocDel, if_neg h]
      simp only [keysOf, List.map_cons, List.mem_cons] at ih ⊢
      rw [ih]
      constructor
      · rintro (rfl | ⟨hl, hr⟩)
        · exact ⟨Or.inl rfl, fun he => h (he ▸ rfl)⟩
        · exact ⟨Or.inr hl, hr⟩
      · rintro ⟨rfl | hl, hr⟩
        · exact Or.inl rfl
        · exact Or.inr ⟨hl, hr⟩

theorem containsKey_iff_mem_keys {κ α : Type} [DecidableEq κ] (k : κ) (l : List (κ × α)) :
    containsKey k l = true ↔ k ∈ keysOf l := by
  induction l with
  | nil => simp [containsKey, assocGet, keysOf]
  | cons e es ih =>
    by_cases h : e.1 = k
    · simp [containsKey, assocGet, keysOf, h]
    · rw [containsKey, assocGet, if_neg h]
      simp only [keysOf, List.map_cons, List.mem_cons]
      constructor
      · intro hs
        exact Or.inr (ih.1 hs)
      · rintro (rfl | hs)
        · exact absurd rfl h
        · exact ih.2 hs

/-! ### List helper lemmas -/

theorem getD_append_left {α : Type} (a b : List α) (d : α) {i : ℕ} (h : i < a.length) :
    (a ++ b).getD i d = a.getD i d :=
  List.getD_append a b d i h

theorem getD_concat_length {α : Type} (a : List α) (r d : α) :
    (a ++ [r]).getD a.length d = r := by
  rw [List.getD_eq_getElem?_getD, List.getElem?_concat_length, Option.getD_some]

theorem getD_set_self {α : Type} (a : List α) (r d : α) {i : ℕ} (h : i < a.length) :
    (a.set i r).getD i d = r := by
  rw [List.getD_eq_getElem?_getD, List.getElem?_set, if_pos rfl, if_pos h, Option.getD_some]

theorem getD_set_ne {α : Type} (a : List α) (r d : α) {i j : ℕ} (h : i ≠ j) :
    (a.set i r).getD j d = a.getD j d := by
  rw [List.getD_eq_getElem?_getD, List.getElem?_set, if_neg h, ← List.getD_eq_getElem?_getD]

theorem getD_of_le {α : Type} (a : List α) (d : α) {i : ℕ} (h : a.length ≤ i) :
    a.getD i d = d := by
  rw [List.getD_eq_getElem?_getD, List.getElem?_eq_none h, Option.getD_none]

theorem getD_eq_of_mem_index {α : Type} {a : List α} {r : α} (d : α) (h : r ∈ a) :
    ∃ i, i < a.length ∧ a.getD i d = r := by
  rcases List.getElem_of_mem h with ⟨i, hi, hr⟩
  exact ⟨i, hi, by rw [List.getD_eq_getElem?_getD, List.getElem?_eq_getElem hi, Option.getD_some, hr]⟩

/-! ### Tree-count lemmas -/

theorem treeCount_append (a b : List EntityRec) :
    treeCount (a ++ b) = treeCount a + treeCount b := by
  simp [treeCount, List.filter_append]

theorem treeCount_set_ground (a : List EntityRec) (r : EntityRec) :
    ∀ i : ℕ, (a.getD i defaultEntity).origin = Origin.ground →
      r.origin = Origin.ground → treeCount (a.set i r) = treeCount a := by
  induction a with
  | nil => intro i _ _; simp
  | cons x xs ih =>
    intro i hold hr
    cases i with
    | zero =>
      simp only [List.set_cons_zero]
      simp only [List.getD_cons_zero] at hold
      simp [treeCount, List.filter_cons, hold, hr]
    | succ j =>
      simp only [List.set_cons_succ]
      simp only [List.getD_cons_succ] at hold
      have ht := ih j hold hr
      by_cases hx : x.origin = Origin.ground
      · simp [treeCount, List.filter_cons, hx] at ht ⊢
        exact ht
      · simp [treeCount, List.filter_cons, hx] at ht ⊢
        exact ht

theorem treeCount_pos_exists {a : List EntityRec} (h : 1 ≤ treeCount a) :
    ∃ r ∈ a, r.origin ≠ Origin.ground := by
  unfold treeCount at h
  rcases List.length_pos.1 h with hne
  rcases List.exists_mem_of_ne_nil _ hne with ⟨r, hr⟩
  rcases List.mem_filter.1 hr with ⟨hmem, hp⟩
  exact ⟨r, hmem, by simpa using hp⟩

theorem treeCount_congr : ∀ a b : List EntityRec, a.length = b.length →
    (∀ i, (a.getD i defaultEntity).origin = (b.getD i defaultEntity).origin) →
    treeCount a = treeCount b := by
  intro a
  induction a with
  | nil =>
    intro b hl _
    cases b with
    | nil => rfl
    | cons y ys => simp at hl
  | cons x xs ih =>
    intro b hl hp
    cases b with
    | nil => simp at hl
    | cons y ys =>
      have h0 := hp 0
      simp only [List.getD_cons_zero] at h0
      have ht : treeCount xs = treeCount ys :=
        ih ys (by simpa using hl) (fun i => by simpa [List.getD_cons_succ] using hp (i + 1))
      by_cases hy : y.origin = Origin.ground
      · simp [treeCount, List.filter_cons, h0, hy] at ht ⊢
        exact ht
      · simp [treeCount, List.filter_cons, h0, hy] at ht ⊢
        exact ht

/-! ### Component lemmas: `get_noise` -/

theorem get_noise_proj (ctx : Ctx) (x z : ℤ) (w : World) :
    (get_noise ctx x z w).2.arena = w.arena ∧
    (get_noise ctx x z w).2.chunk_pool = w.chunk_pool ∧
    (get_noise ctx x z w).2.loaded_chunks = w.loaded_chunks ∧
    (get_noise ctx x z w).2.biome_map = w.biome_map ∧
    (get_noise ctx x z w).2.uidx = w.uidx ∧
    (get_noise ctx x z w).2.iidx = w.iidx := by
  unfold get_noise
  split <;> simp

theorem get_noise_fst (ctx : Ctx) (x z : ℤ) (w : World) :
    (get_noise ctx x z w).1 = step_height ctx w x z := by
  unfold get_noise step_height
  by_cases hc : containsKey (x, z) w.noise_cache
  · rw [if_pos hc]
    rcases Option.isSome_iff_exists.1 hc with ⟨v, hv⟩
    simp [lookupD, hv]
  · rw [if_neg hc]
    have hnone : assocGet (x, z) w.noise_cache = none := by
      rcases h : assocGet (x, z) w.noise_cache with _ | v
      · rfl
      · exact absurd (by simp [containsKey, h]) hc
    simp [lookupD, assocGet_upd_self, hnone, pureHeight]

theorem get_noise_coherent (ctx : Ctx) (x z : ℤ) (w : World)
    (h : coherentCache ctx w.noise_cache) :
    coherentCache ctx (get_noise ctx x z w).2.noise_cache := by
  unfold get_noise
  split
  · exact h
  · intro p hp
    rcases mem_assocUpd hp with hnew | hold
    · subst hnew
      rfl
    · exact h p hold

theorem step_height_coherent (ctx : Ctx) (w : World) (x z : ℤ)
    (h : coherentCache ctx w.noise_cache) :
    step_height ctx w x z = pureHeight ctx x z := by
  unfold step_height
  rcases hv : assocGet (x, z) w.noise_cache with _ | v
  · rfl
  · simpa using h _ (mem_of_assocGet_eq_some hv)

theorem get_noise_cache_stable (ctx : Ctx) (x z : ℤ) (w : World)
    (h : containsKey (x, z) w.noise_cache = true) :
    (get_noise ctx x z w).2 = w := by
  unfold get_noise
  rw [if_pos h]

theorem get_noise_contains_after (ctx : Ctx) (x z : ℤ) (w : World) :
    containsKey (x, z) (get_noise ctx x z w).2.noise_cache = true := by
  unfold get_noise
  by_cases hc : containsKey (x, z) w.noise_cache
  · rw [if_pos hc]
    exact hc
  · rw [if_neg hc]
    simp [containsKey, assocGet_upd_self]

/-! ### Component lemmas: `get_chunk_entity` -/

theorem gce_cases (w : World) :
    (∃ e, w.chunk_pool.getLast? = some e ∧
      get_chunk_entity w = (e, { w with chunk_pool := w.chunk_pool.dropLast })) ∨
    (w.chunk_pool = [] ∧
      get_chunk_entity w = (w.arena.length, { w with arena := w.arena ++ [defaultEntity] })) := by
  rcases h : w.chunk_pool.getLast? with _ | e
  · refine Or.inr ⟨List.getLast?_eq_none_iff.1 h, ?_⟩
    unfold get_chunk_entity
    rw [h]
  · refine Or.inl ⟨e, ?_, ?_⟩
    · first
      | exact h
      | rfl
    · unfold get_chunk_entity
      rw [h]

/-! ### Component lemmas: `generate_procedural_tree` -/

theorem fold_append_arena (g : ℕ → EntityRec) :
    ∀ (l : List ℕ) (w : World),
      ∃ ext : List EntityRec,
        l.foldl (fun w i => { w with arena := w.arena ++ [g i] }) w =
          { w with arena := w.arena ++ ext } ∧
        ∀ r ∈ ext, ∃ i ∈ l, r = g i := by
  intro l
  induction l with
  | nil =>
    intro w
    exact ⟨[], by simp, by simp⟩
  | cons i0 l ih =>
    intro w
    rcases ih { w with arena := w.arena ++ [g i0] } with ⟨ext, heq, hmem⟩
    refine ⟨g i0 :: ext, ?_, ?_⟩
    · rw [List.foldl_cons, heq]
      simp
    · intro r hr
      rcases List.mem_cons.1 hr with rfl | hr
      · exact ⟨i0, by simp, rfl⟩
      · rcases hmem r hr with ⟨i, hi, hri⟩
        exact ⟨i, by simp [hi], hri⟩

theorem tree_spec (ctx : Ctx) (x y z : ℚ) (w : World) :
    ∃ ext : List EntityRec,
      generate_procedural_tree ctx x y z w =
        { w with iidx := w.iidx + 1, arena := w.arena ++ ext } ∧
      ext ≠ [] ∧
      ∀ r ∈ ext, r.origin ≠ Origin.ground ∧ r.enabled = true := by
  unfold generate_procedural_tree
  rcases fold_append_arena
      (foliageRec x y z (3 + ctx.rint w.iidx % 4))
      (List.range (3 + ctx.rint w.iidx % 4))
      { w with iidx := w.iidx + 1, arena := w.arena ++ [trunkRec x y z (3 + ctx.rint w.iidx % 4)] }
    with ⟨ext, heq, hmem⟩
  refine ⟨trunkRec x y z (3 + ctx.rint w.iidx % 4) :: ext, ?_, by simp, ?_⟩
  · rw [heq]
    simp
  · intro r hr
    rcases List.mem_cons.1 hr with rfl | hr
    · exact ⟨by simp [trunkRec], by simp [trunkRec]⟩
    · rcases hmem r hr with ⟨i, _, rfl⟩
      exact ⟨by simp [foliageRec], by simp [foliageRec]⟩

/-! ### Component lemmas: `unload_chunk` -/

theorem unload_fold_spec :
    ∀ (l : List ℕ) (w : World),
      ∃ a' : List EntityRec,
        l.foldl
          (fun w e =>
            { w with
                arena := w.arena.set e { (w.arena.getD e defaultEntity) with enabled := false }
                chunk_pool := w.chunk_pool ++ [e] })
          w = { w with arena := a', chunk_pool := w.chunk_pool ++ l } ∧
        a'.length = w.arena.length ∧
        (∀ i, i ∉ l → a'.getD i defaultEntity = w.arena.getD i defaultEntity) ∧
        (∀ i, (a'.getD i defaultEntity).origin = (w.arena.getD i defaultEntity).origin) ∧
        (∀ i, obsConfig (a'.getD i defaultEntity) = obsConfig (w.arena.getD i defaultEntity)) := by
  intro l
  induction l with
  | nil =>
    intro w
    exact ⟨w.arena, by simp, rfl, fun i _ => rfl, fun i => rfl, fun i => rfl⟩
  | cons e l ih =>
    intro w
    rcases ih { w with
        arena := w.arena.set e { (w.arena.getD e defaultEntity) with enabled := false }
        chunk_pool := w.chunk_pool ++ [e] } with ⟨a', heq, hlen, huntouched, horig, hobs⟩
    have harena : (w.arena.set e { (w.arena.getD e defaultEntity) with enabled := false }).getD e defaultEntity
        = if e < w.arena.length then { (w.arena.getD e defaultEntity) with enabled := false }
          else w.arena.getD e defaultEntity := by
      by_cases hlt : e < w.arena.length
      · rw [if_pos hlt, getD_set_self _ _ _ hlt]
      · rw [if_neg hlt, List.set_eq_of_length_le (Nat.le_of_not_lt hlt)]
    refine ⟨a', ?_, ?_, ?_, ?_, ?_⟩
    · refine heq.trans ?_
      simp
    · simpa using hlen
    · intro i hi
      have hie : i ≠ e := fun h => hi (h ▸ List.mem_cons_self e l)
      have hil : i ∉ l := fun h => hi (List.mem_cons_of_mem e h)
      rw [huntouched i hil]
      exact getD_set_ne w.arena _ defaultEntity (fun h => hie h.symm)
    · intro i
      rw [horig i]
      by_cases hie : i = e
      · subst hie
        show ((w.arena.set i _).getD i defaultEntity).origin = _
        rw [harena]
        by_cases hlt : i < w.arena.length
        · rw [if_pos hlt]
        · rw [if_neg hlt]
      · exact congrArg EntityRec.origin (getD_set_ne w.arena _ defaultEntity (fun h => hie h.symm))
    · intro i
      rw [hobs i]
      by_cases hie : i = e
      · subst hie
        show obsConfig ((w.arena.set i _).getD i defaultEntity) = _
        rw [harena]
        by_cases hlt : i < w.arena.length
        · rw [if_pos hlt]
          rfl
        · rw [if_neg hlt]
      · exact congrArg obsConfig (getD_set_ne w.arena _ defaultEntity (fun h => hie h.symm))

theorem unload_spec (cp : ℤ × ℤ) (w : World) (h : containsKey cp w.loaded_chunks = true) :
    ∃ a' : List EntityRec,
      unload_chunk cp w =
        { w with
            loaded_chunks := assocDel cp w.loaded_chunks
            chunk_pool := w.chunk_pool ++ lookupD cp w.loaded_chunks []
            arena := a' } ∧
      a'.length = w.arena.length ∧
      (∀ i, i ∉ lookupD cp w.loaded_chunks [] →
        a'.getD i defaultEntity = w.arena.getD i defaultEntity) ∧
      (∀ i, (a'.getD i defaultEntity).origin = (w.arena.getD i defaultEntity).origin) ∧
      (∀ i, obsConfig (a'.getD i defaultEntity) = obsConfig (w.arena.getD i defaultEntity)) := by
  unfold unload_chunk
  rw [if_pos h]
  rcases unload_fold_spec (lookupD cp w.loaded_chunks []) w with
    ⟨a', heq, hlen, huntouched, horig, hobs⟩
  refine ⟨a', ?_, hlen, huntouched, horig, hobs⟩
  simp only [heq]

theorem unload_not_loaded {cp : ℤ × ℤ} {w : World}
    (h : containsKey cp w.loaded_chunks = false) : unload_chunk cp w = w := by
  unfold unload_chunk
  rw [if_neg (by simp [h])]

/-! ### Projection equations for the stateful components -/

theorem get_noise_arena (ctx : Ctx) (x z : ℤ) (w : World) :
    (get_noise ctx x z w).2.arena = w.arena := (get_noise_proj ctx x z w).1

theorem get_noise_pool (ctx : Ctx) (x z : ℤ) (w : World) :
    (get_noise ctx x z w).2.chunk_pool = w.chunk_pool := (get_noise_proj ctx x z w).2.1

theorem get_noise_loaded (ctx : Ctx) (x z : ℤ) (w : World) :
    (get_noise ctx x z w).2.loaded_chunks = w.loaded_chunks := (get_noise_proj ctx x z w).2.2.1

theorem get_noise_biome (ctx : Ctx) (x z : ℤ) (w : World) :
    (get_noise ctx x z w).2.biome_map = w.biome_map := (get_noise_proj ctx x z w).2.2.2.1

theorem get_noise_uidx (ctx : Ctx) (x z : ℤ) (w : World) :
    (get_noise ctx x z w).2.uidx = w.uidx := (get_noise_proj ctx x z w).2.2.2.2.1

theorem get_noise_iidx (ctx : Ctx) (x z : ℤ) (w : World) :
    (get_noise ctx x z w).2.iidx = w.iidx := (get_noise_proj ctx x z w).2.2.2.2.2

theorem tree_loaded (ctx : Ctx) (x y z : ℚ) (w : World) :
    (generate_procedural_tree ctx x y z w).loaded_chunks = w.loaded_chunks := by
  rcases tree_spec ctx x y z w with ⟨ext, heq, -, -⟩
  rw [heq]

theorem tree_biome (ctx : Ctx) (x y z : ℚ) (w : World) :
    (generate_procedural_tree ctx x y z w).biome_map = w.biome_map := by
  rcases tree_spec ctx x y z w with ⟨ext, heq, -, -⟩
  rw [heq]

theorem tree_pool (ctx : Ctx) (x y z : ℚ) (w : World) :
    (generate_procedural_tree ctx x y z w).chunk_pool = w.chunk_pool := by
  rcases tree_spec ctx x y z w with ⟨ext, heq, -, -⟩
  rw [heq]

theorem tree_cache (ctx : Ctx) (x y z : ℚ) (w : World) :
    (generate_procedural_tree ctx x y z w).noise_cache = w.noise_cache := by
  rcases tree_spec ctx x y z w with ⟨ext, heq, -, -⟩
  rw [heq]

theorem tree_uidx (ctx : Ctx) (x y z : ℚ) (w : World) :
    (generate_procedural_tree ctx x y z w).uidx = w.uidx := by
  rcases tree_spec ctx x y z w with ⟨ext, heq, -, -⟩
  rw [heq]

/-! ### Field preservation through `cellStep` -/

theorem cellStep_fields (ctx : Ctx) (cp : ℤ × ℤ) (st : World × List ℕ) (c : ℕ × ℕ) :
    (cellStep ctx cp st c).1.loaded_chunks = st.1.loaded_chunks ∧
    (cellStep ctx cp st c).1.biome_map = st.1.biome_map ∧
    (∃ t, (cellStep ctx cp st c).1.chunk_pool ++ t = st.1.chunk_pool) := by
  simp only [cellStep]
  rcases gce_cases (get_noise ctx (cp.1 * 16 + (c.1 : ℤ)) (cp.2 * 16 + (c.2 : ℤ)) st.1).2 with
    ⟨e, hlast, hgce⟩ | ⟨hemp, hgce⟩
  · rw [hgce]
    have hpool : (get_noise ctx (cp.1 * 16 + (c.1 : ℤ)) (cp.2 * 16 + (c.2 : ℤ)) st.1).2.chunk_pool.dropLast ++ [e]
        = st.1.chunk_pool := by
      rw [List.dropLast_append_getLast? e hlast, get_noise_pool]
    split
    · split
      · exact ⟨by simp [tree_loaded, get_noise_loaded],
               by simp [tree_biome, get_noise_biome],
               ⟨[e], by simpa [tree_pool] using hpool⟩⟩
      · exact ⟨by simp [get_noise_loaded], by simp [get_noise_biome], ⟨[e], by simpa using hpool⟩⟩
    · exact ⟨by simp [get_noise_loaded], by simp [get_noise_biome], ⟨[e], by simpa using hpool⟩⟩
  · rw [hgce]
    have hpool : (get_noise ctx (cp.1 * 16 + (c.1 : ℤ)) (cp.2 * 16 + (c.2 : ℤ)) st.1).2.chunk_pool ++ []
        = st.1.chunk_pool := by
      rw [List.append_nil, get_noise_pool]
    split
    · split
      · exact ⟨by simp [tree_loaded, get_noise_loaded],
               by simp [tree_biome, get_noise_biome],
               ⟨[], by simpa [tree_pool] using hpool⟩⟩
      · exact ⟨by simp [get_noise_loaded], by simp [get_noise_biome], ⟨[], by simpa using hpool⟩⟩
    · exact ⟨by simp [get_noise_loaded], by simp [get_noise_biome], ⟨[], by simpa using hpool⟩⟩

/-! ### A characterization of one `cellStep` -/

theorem get_noise_shape (ctx : Ctx) (x z : ℤ) (w : World) :
    ∃ (cache' : List ((ℤ × ℤ) × ℚ)) (log' : List (ℤ × ℤ)),
      (get_noise ctx x z w).2 = { w with noise_cache := cache', log := log' } ∧
      (coherentCache ctx w.noise_cache → coherentCache ctx cache') := by
  unfold get_noise
  by_cases hc : containsKey (x, z) w.noise_cache
  · exact ⟨w.noise_cache, w.log, by rw [if_pos hc], fun h => h⟩
  · refine ⟨assocUpd (x, z) (ctx.ν ((x : ℚ) / 20) ((z : ℚ) / 20) * 4) w.noise_cache,
      w.log ++ [(x, z)], by rw [if_neg hc], ?_⟩
    intro h p hp
    rcases mem_assocUpd hp with rfl | hold
    · rfl
    · exact h p hold

theorem treeCount_eq_length {ext : List EntityRec}
    (h : ∀ r ∈ ext, r.origin ≠ Origin.ground) : treeCount ext = ext.length := by
  induction ext with
  | nil => rfl
  | cons r rs ih =>
    have hr := h r (List.mem_cons_self r rs)
    have ht : treeCount rs = rs.length := ih (fun x hx => h x (List.mem_cons_of_mem _ hx))
    simp only [treeCount, List.filter_cons] at ht ⊢
    rw [if_pos (by simpa using hr)]
    simp only [List.length_cons, ht]

theorem cellStep_spec (ctx : Ctx) (cp : ℤ × ℤ) (st : World × List ℕ) (c : ℕ × ℕ) :
    ∃ (e : ℕ) (A₀ ext : List EntityRec) (cache' : List ((ℤ × ℤ) × ℚ)) (log' : List (ℤ × ℤ))
      (du di : ℕ) (pool' : List ℕ),
      cellStep ctx cp st c =
        ({ st.1 with
            noise_cache := cache'
            log := log'
            chunk_pool := pool'
            arena := (A₀.set e (groundCfg ctx st.1.biome_map (A₀.getD e defaultEntity)
                        (cp.1 * 16 + (c.1 : ℤ)) (cp.2 * 16 + (c.2 : ℤ))
                        (step_y ctx st.1 (cp.1 * 16 + (c.1 : ℤ)) (cp.2 * 16 + (c.2 : ℤ))))) ++ ext
            uidx := st.1.uidx + du
            iidx := st.1.iidx + di }, st.2 ++ [e]) ∧
      ((st.1.chunk_pool.getLast? = some e ∧ A₀ = st.1.arena ∧
          pool' = st.1.chunk_pool.dropLast) ∨
        (st.1.chunk_pool = [] ∧ e = st.1.arena.length ∧ A₀ = st.1.arena ++ [defaultEntity] ∧
          pool' = st.1.chunk_pool)) ∧
      (∀ r ∈ ext, r.origin ≠ Origin.ground ∧ r.enabled = true) ∧
      (coherentCache ctx st.1.noise_cache → coherentCache ctx cache') ∧
      (step_y ctx st.1 (cp.1 * 16 + (c.1 : ℤ)) (cp.2 * 16 + (c.2 : ℤ)) ≤ 2 →
        ext = [] ∧ du = 0 ∧ di = 0) ∧
      (2 < step_y ctx st.1 (cp.1 * 16 + (c.1 : ℤ)) (cp.2 * 16 + (c.2 : ℤ)) →
        ctx.uni st.1.uidx < 1/10 → ext ≠ []) := by
  rcases get_noise_shape ctx (cp.1 * 16 + (c.1 : ℤ)) (cp.2 * 16 + (c.2 : ℤ)) st.1 with
    ⟨cache', log', hshape, hcohimp⟩
  simp only [cellStep, hshape, get_noise_fst]
  rcases gce_cases { st.1 with noise_cache := cache', log := log' } with
    ⟨e, hlast, hgce⟩ | ⟨hemp, hgce⟩
  · rw [hgce]
    simp only at hlast
    refine ⟨e, st.1.arena, ?_⟩
    split
    · split
      · rcases tree_spec ctx ((cp.1 * 16 + (c.1 : ℤ) : ℤ) : ℚ)
          (step_height ctx st.1 (cp.1 * 16 + (c.1 : ℤ)) (cp.2 * 16 + (c.2 : ℤ)) +
            detailNoise ctx (cp.1 * 16 + (c.1 : ℤ)) (cp.2 * 16 + (c.2 : ℤ)) + 1)
          ((cp.2 * 16 + (c.2 : ℤ) : ℤ) : ℚ) _ with ⟨ext, htree, hne, hprops⟩
        rw [htree]
        refine ⟨ext, cache', log', 1, 1, st.1.chunk_pool.dropLast, ?_, ?_, hprops, hcohimp, ?_, ?_⟩
        · simp [groundCfg, step_y]
        · exact Or.inl ⟨hlast, rfl, rfl⟩
        · intro hy
          exact absurd hy (by simp only [step_y, step_height, detailNoise] at *; linarith)
        · intro _ _
          exact hne
      · refine ⟨[], cache', log', 1, 0, st.1.chunk_pool.dropLast, ?_, ?_, by simp, hcohimp, ?_, ?_⟩
        · simp [groundCfg, step_y]
        · exact Or.inl ⟨hlast, rfl, rfl⟩
        · intro hy
          exact absurd hy (by simp only [step_y, step_height, detailNoise] at *; linarith)
        · intro _ hu
          exact absurd hu (by assumption)
    · refine ⟨[], cache', log', 0, 0, st.1.chunk_pool.dropLast, ?_, ?_, by simp, hcohimp, ?_, ?_⟩
      · simp [groundCfg, step_y]
      · exact Or.inl ⟨hlast, rfl, rfl⟩
      · exact fun _ => ⟨rfl, rfl, rfl⟩
      · intro hy _
        exact absurd hy (by simp only [step_y, step_height, detailNoise] at *; linarith)
  · rw [hgce]
    simp only at hemp
    refine ⟨st.1.arena.length, st.1.arena ++ [defaultEntity], ?_⟩
    split
    · split
      · rcases tree_spec ctx ((cp.1 * 16 + (c.1 : ℤ) : ℤ) : ℚ)
          (step_height ctx st.1 (cp.1 * 16 + (c.1 : ℤ)) (cp.2 * 16 + (c.2 : ℤ)) +
            detailNoise ctx (cp.1 * 16 + (c.1 : ℤ)) (cp.2 * 16 + (c.2 : ℤ)) + 1)
          ((cp.2 * 16 + (c.2 : ℤ) : ℤ) : ℚ) _ with ⟨ext, htree, hne, hprops⟩
        rw [htree]
        refine ⟨ext, cache', log', 1, 1, st.1.chunk_pool, ?_, ?_, hprops, hcohimp, ?_, ?_⟩
        · simp [groundCfg, step_y]
        · exact Or.inr ⟨hemp, rfl, rfl, rfl⟩
        · intro hy
          exact absurd hy (by simp only [step_y, step_height, detailNoise] at *; linarith)
        · intro _ _
          exact hne
      · refine ⟨[], cache', log', 1, 0, st.1.chunk_pool, ?_, ?_, by simp, hcohimp, ?_, ?_⟩
        · simp [groundCfg, step_y]
        · exact Or.inr ⟨hemp, rfl, rfl, rfl⟩
        · intro hy
          exact absurd hy (by simp only [step_y, step_height, detailNoise] at *; linarith)
        · intro _ hu
          exact absurd hu (by assumption)
    · refine ⟨[], cache', log', 0, 0, st.1.chunk_pool, ?_, ?_, by simp, hcohimp, ?_, ?_⟩
      · simp [groundCfg, step_y]
      · exact Or.inr ⟨hemp, rfl, rfl, rfl⟩
      · exact fun _ => ⟨rfl, rfl, rfl⟩
      · intro hy _
        exact absurd hy (by simp only [step_y, step_height, detailNoise] at *; linarith)

/-! ### More list helpers for the generation invariant -/

theorem getD_append_right {α : Type} (a b : List α) (d : α) {i : ℕ} (h : a.length ≤ i) :
    (a ++ b).getD i d = b.getD (i - a.length) d := by
  rw [List.getD_eq_getElem?_getD, List.getElem?_append, if_neg (by omega),
    ← List.getD_eq_getElem?_getD]

theorem set_concat_length {α : Type} (a : List α) (d r : α) :
    (a ++ [d]).set a.length r = a ++ [r] := by
  induction a with
  | nil => rfl
  | cons x xs ih => simp [List.set_cons_succ, ih]

theorem getD_mem_of_lt {α : Type} (b : List α) (d : α) {i : ℕ} (h : i < b.length) :
    b.getD i d ∈ b := by
  rw [List.getD_eq_getElem?_getD, List.getElem?_eq_getElem h, Option.getD_some]
  exact List.getElem_mem h

theorem range'_split (n m k : ℕ) (h : n ≤ m) :
    List.range' n (m + k - n) = List.range' n (m - n) ++ List.range' m k := by
  have h1 : m + k - n = k + (m - n) := by omega
  have h2 : n + (m - n) = m := by omega
  rw [h1, ← List.range'_append n (m - n) k 1]
  simp [h2]

theorem newGround_self (a : List EntityRec) : newGround a.length a = [] := by
  simp [newGround]

theorem newGround_set_lt {n e : ℕ} (a ext : List EntityRec) (r : EntityRec)
    (hen : e < n) (hna : n ≤ a.length)
    (hext : ∀ x ∈ ext, x.origin ≠ Origin.ground) :
    newGround n ((a.set e r) ++ ext) = newGround n a := by
  unfold newGround
  have hlen : ((a.set e r) ++ ext).length = a.length + ext.length := by simp
  rw [hlen, range'_split n a.length ext.length hna, List.filter_append]
  have h2 : (List.range' a.length ext.length).filter
      (fun i => decide (((a.set e r ++ ext).getD i defaultEntity).origin = Origin.ground)) = [] := by
    rw [List.filter_eq_nil_iff]
    intro i hi
    rw [List.mem_range'_1] at hi
    have : ((a.set e r) ++ ext).getD i defaultEntity = ext.getD (i - a.length) defaultEntity := by
      rw [getD_append_right _ _ _ (by simpa using hi.1)]
      simp
    rw [this]
    have hmem : ext.getD (i - a.length) defaultEntity ∈ ext :=
      getD_mem_of_lt ext defaultEntity (by omega)
    simpa using hext _ hmem
  rw [h2, List.append_nil]
  apply List.filter_congr
  intro i hi
  rw [List.mem_range'_1] at hi
  have : ((a.set e r) ++ ext).getD i defaultEntity = a.getD i defaultEntity := by
    rw [getD_append_left _ _ _ (by simpa using (by omega : i < a.length)),
      getD_set_ne _ _ _ (by omega)]
  rw [this]

theorem newGround_concat {n : ℕ} (a ext : List EntityRec) (r : EntityRec)
    (hna : n ≤ a.length) (hr : r.origin = Origin.ground)
    (hext : ∀ x ∈ ext, x.origin ≠ Origin.ground) :
    newGround n ((a ++ [r]) ++ ext) = newGround n a ++ [a.length] := by
  have har : (a ++ [r]).length = a.length + 1 := by
    simp only [List.length_append, List.length_cons, List.length_nil]
  unfold newGround
  have hlen : ((a ++ [r]) ++ ext).length = (a.length + 1) + ext.length := by
    simp only [List.length_append, List.length_cons, List.length_nil]
  rw [hlen, range'_split n (a.length + 1) ext.length (by omega), List.filter_append]
  have h2 : (List.range' (a.length + 1) ext.length).filter
      (fun i => decide ((((a ++ [r]) ++ ext).getD i defaultEntity).origin = Origin.ground)) = [] := by
    rw [List.filter_eq_nil_iff]
    intro i hi
    rw [List.mem_range'_1] at hi
    have hgd : ((a ++ [r]) ++ ext).getD i defaultEntity
        = ext.getD (i - (a.length + 1)) defaultEntity := by
      rw [getD_append_right _ _ _ (by rw [har]; omega), har]
    rw [hgd]
    have hmem : ext.getD (i - (a.length + 1)) defaultEntity ∈ ext :=
      getD_mem_of_lt ext defaultEntity (by omega)
    simpa using hext _ hmem
  rw [h2, List.append_nil]
  have h3 : a.length + 1 - n = (a.length - n) + 1 := by omega
  rw [h3, List.range'_concat, List.filter_append]
  have h4 : n + 1 * (a.length - n) = a.length := by omega
  rw [h4]
  congr 1
  · apply List.filter_congr
    intro i hi
    rw [List.mem_range'_1] at hi
    have hgd : ((a ++ [r]) ++ ext).getD i defaultEntity = a.getD i defaultEntity := by
      rw [getD_append_left _ _ _ (by rw [har]; omega), getD_append_left _ _ _ (by omega)]
    rw [hgd]
  · have hgd : ((a ++ [r]) ++ ext).getD a.length defaultEntity = r := by
      rw [getD_append_left _ _ _ (by rw [har]; omega), getD_concat_length]
    have hp : (decide ((((a ++ [r]) ++ ext).getD a.length defaultEntity).origin = Origin.ground))
        = true := by
      rw [hgd, hr]
      simp
    rw [List.filter_cons, hp]
    simp

/-! ### The generation invariant -/

theorem genInv_init (ctx : Ctx) (cp : ℤ × ℤ) (w : World) (hw : BaseOk ctx w) :
    GenInv ctx cp w [] (w, []) := by
  refine ⟨rfl, rfl, hw.base_coh, ⟨[], by simp⟩, Nat.le_refl _, List.nodup_nil,
    by simp, by simp, rfl, by simp, ?_, fun i _ => rfl, hw.base_trees_on,
    by simp, by simp, Or.inr (by simp), fun e he => Or.inl he, fun e _ => rfl⟩
  simp [newGround_self]

theorem step_y_coherent (ctx : Ctx) (w : World) (x z : ℤ)
    (h : coherentCache ctx w.noise_cache) : step_y ctx w x z = pureY ctx x z := by
  unfold step_y pureY
  rw [step_height_coherent ctx w x z h]

theorem genInv_step (ctx : Ctx) (cp : ℤ × ℤ) (w : World) (hw : BaseOk ctx w)
    (ps : List (ℕ × ℕ)) (st : World × List ℕ) (c : ℕ × ℕ)
    (hJ : GenInv ctx cp w ps st) :
    GenInv ctx cp w (ps ++ [c]) (cellStep ctx cp st c) := by
  rcases cellStep_spec ctx cp st c with
    ⟨e, A₀, ext, cache', log', du, di, pool', heq, hcase, hext, hcohimp, hlow, hspawn⟩
  rw [heq]
  clear heq hlow hspawn
  rcases hcase with ⟨hlast, hA, hpool⟩ | ⟨hemp, he, hA, hpool⟩
  · -- recycled handle: the pool pops its last element
    subst hA hpool
    rcases hJ.pool_pre with ⟨t, ht⟩
    have hPsplit : st.1.chunk_pool.dropLast ++ [e] = st.1.chunk_pool :=
      List.dropLast_append_getLast? e hlast
    have heP : e ∈ st.1.chunk_pool := by
      rw [← hPsplit]
      simp
    have hePw : e ∈ w.chunk_pool := by
      rw [← ht]
      exact List.mem_append_left _ heP
    have hen : e < w.arena.length := hw.pool_lt e hePw
    have heA : e < st.1.arena.length := Nat.lt_of_lt_of_le hen hJ.alen
    have heacc : e ∉ st.2 := hJ.pool_disj e heP
    have hPnodup : st.1.chunk_pool.Nodup := by
      have := hw.pool_nodup
      rw [← ht] at this
      exact this.of_append_left
    have hedrop : e ∉ st.1.chunk_pool.dropLast := by
      intro hmem
      have : (st.1.chunk_pool.dropLast ++ [e]).Nodup := by rw [hPsplit]; exact hPnodup
      rcases List.nodup_append.1 this with ⟨-, -, hdisj⟩
      exact hdisj hmem (by simp)
    have hrec : st.1.arena.getD e defaultEntity = w.arena.getD e defaultEntity :=
      hJ.pool_rec e heP
    have horig_e : (st.1.arena.getD e defaultEntity).origin = Origin.ground := by
      rw [hrec]
      exact hw.pool_ground e hePw
    have hdropsub : ∀ x ∈ st.1.chunk_pool.dropLast, x ∈ st.1.chunk_pool := by
      intro x hx
      rw [← hPsplit]
      exact List.mem_append_left _ hx
    have hsetlen : (st.1.arena.set e (groundCfg ctx st.1.biome_map
        (st.1.arena.getD e defaultEntity) (cp.1 * 16 + (c.1 : ℤ)) (cp.2 * 16 + (c.2 : ℤ))
        (step_y ctx st.1 (cp.1 * 16 + (c.1 : ℤ)) (cp.2 * 16 + (c.2 : ℤ))))).length
        = st.1.arena.length := List.length_set _ _ _
    have hold : ∀ i, i ≠ e → i < st.1.arena.length →
        ((st.1.arena.set e (groundCfg ctx st.1.biome_map
          (st.1.arena.getD e defaultEntity) (cp.1 * 16 + (c.1 : ℤ)) (cp.2 * 16 + (c.2 : ℤ))
          (step_y ctx st.1 (cp.1 * 16 + (c.1 : ℤ)) (cp.2 * 16 + (c.2 : ℤ))))) ++ ext).getD i
            defaultEntity = st.1.arena.getD i defaultEntity := by
      intro i hne hi
      rw [getD_append_left _ _ _ (by rw [hsetlen]; exact hi),
        getD_set_ne _ _ _ (fun h => hne h.symm)]
    have hnew : ((st.1.arena.set e (groundCfg ctx st.1.biome_map
        (st.1.arena.getD e defaultEntity) (cp.1 * 16 + (c.1 : ℤ)) (cp.2 * 16 + (c.2 : ℤ))
        (step_y ctx st.1 (cp.1 * 16 + (c.1 : ℤ)) (cp.2 * 16 + (c.2 : ℤ))))) ++ ext).getD e
          defaultEntity = groundCfg ctx st.1.biome_map (st.1.arena.getD e defaultEntity)
            (cp.1 * 16 + (c.1 : ℤ)) (cp.2 * 16 + (c.2 : ℤ))
            (step_y ctx st.1 (cp.1 * 16 + (c.1 : ℤ)) (cp.2 * 16 + (c.2 : ℤ))) := by
      rw [getD_append_left _ _ _ (by rw [hsetlen]; exact heA), getD_set_self _ _ _ heA]
    refine ⟨hJ.biome, hJ.loaded, hcohimp hJ.coh, ?_, ?_, ?_, ?_, ?_, ?_, ?_, ?_, ?_, ?_,
      ?_, ?_, ?_, ?_, ?_⟩
    · exact ⟨[e] ++ t, by rw [← List.append_assoc, hPsplit, ht]⟩
    · dsimp only
      have := hJ.alen
      simp only [List.length_append, List.length_set]
      omega
    · dsimp only
      rw [List.nodup_append]
      exact ⟨hJ.acc_nodup, List.nodup_singleton e,
        fun a ha hae => heacc ((List.mem_singleton.1 hae) ▸ ha)⟩
    · dsimp only
      intro x hx
      simp only [List.length_append, List.length_set]
      rcases List.mem_append.1 hx with hx | hx
      · have := hJ.acc_lt x hx
        omega
      · rw [List.mem_singleton.1 hx]
        omega
    · dsimp only
      intro x hx hmem
      have hxP : x ∈ st.1.chunk_pool := hdropsub x hx
      rcases List.mem_append.1 hmem with hmem | hmem
      · exact hJ.pool_disj x hxP hmem
      · rw [List.mem_singleton.1 hmem] at hx
        exact hedrop hx
    · dsimp only
      rw [List.map_append, List.map_append]
      congr 1
      · refine (List.map_congr_left ?_).trans hJ.configs
        intro a ha
        rw [hold a (fun h => heacc (h ▸ ha)) (hJ.acc_lt a ha)]
      · rw [List.map_singleton, List.map_singleton, hnew]
        rw [step_y_coherent ctx st.1 _ _ hJ.coh, hJ.biome]
        simp [obsConfig, groundCfg, pureCellConfig]
    · dsimp only
      intro x hx
      rcases List.mem_append.1 hx with hx | hx
      · rw [hold x (fun h => heacc (h ▸ hx)) (hJ.acc_lt x hx)]
        exact hJ.acc_ground x hx
      · rw [List.mem_singleton.1 hx, hnew]
        simp [groundCfg]
    · dsimp only
      rw [newGround_set_lt st.1.arena ext _ hen hJ.alen (fun x hx => (hext x hx).1)]
      have h1 : (st.1.chunk_pool.dropLast ++ (st.2 ++ [e])).Perm
          ((st.1.chunk_pool.dropLast ++ [e]) ++ st.2) := by
        rw [List.append_assoc]
        exact List.Perm.append_left _ List.perm_append_comm
      rw [hPsplit] at h1
      exact h1.trans hJ.perm
    · dsimp only
      intro i hi
      by_cases hie : i = e
      · subst hie
        rw [hnew]
        have : (w.arena.getD i defaultEntity).origin = Origin.ground := hw.pool_ground i hePw
        rw [this]
        simp [groundCfg]
      · rw [hold i hie (Nat.lt_of_lt_of_le hi hJ.alen)]
        exact hJ.old_orig i hi
    · dsimp only
      intro i hi hng
      simp only [List.length_append, List.length_set] at hi
      by_cases hie : i = e
      · subst hie
        rw [hnew] at hng ⊢
        exact absurd (by simp [groundCfg]) hng
      · by_cases hilt : i < st.1.arena.length
        · rw [hold i hie hilt] at hng ⊢
          exact hJ.trees_on i hilt hng
        · have hge : st.1.arena.length ≤ i := Nat.le_of_not_lt hilt
          have hgd : ((st.1.arena.set e (groundCfg ctx st.1.biome_map
              (st.1.arena.getD e defaultEntity) (cp.1 * 16 + (c.1 : ℤ))
              (cp.2 * 16 + (c.2 : ℤ))
              (step_y ctx st.1 (cp.1 * 16 + (c.1 : ℤ)) (cp.2 * 16 + (c.2 : ℤ))))) ++ ext).getD i
                defaultEntity
              = ext.getD (i - st.1.arena.length) defaultEntity := by
            rw [getD_append_right _ _ _ (by rw [hsetlen]; exact hge), hsetlen]
          rw [hgd] at hng ⊢
          exact (hext _ (getD_mem_of_lt ext defaultEntity (by omega))).2
    · dsimp only
      intro x hx
      rcases List.mem_append.1 hx with hx | hx
      · rw [hold x (fun h => heacc (h ▸ hx)) (hJ.acc_lt x hx)]
        exact hJ.enabled_eq x hx
      · rw [List.mem_singleton.1 hx, hnew]
        have : (groundCfg ctx st.1.biome_map (st.1.arena.getD e defaultEntity)
            (cp.1 * 16 + (c.1 : ℤ)) (cp.2 * 16 + (c.2 : ℤ))
            (step_y ctx st.1 (cp.1 * 16 + (c.1 : ℤ)) (cp.2 * 16 + (c.2 : ℤ)))).enabled
            = (st.1.arena.getD e defaultEntity).enabled := rfl
        rw [this, hrec, if_pos hen]
    · dsimp only
      intro x hx
      rcases List.mem_append.1 hx with hx | hx
      · rw [hold x (fun h => heacc (h ▸ hx)) (hJ.acc_lt x hx)]
        exact hJ.coll x hx
      · rw [List.mem_singleton.1 hx, hnew]
        unfold colliderOk groundCfg
        by_cases h2 : step_y ctx st.1 (cp.1 * 16 + (c.1 : ℤ)) (cp.2 * 16 + (c.2 : ℤ)) ≤ 2
      <;> simp [h2]
    · dsimp only
      refine Or.inr ?_
      rcases hJ.pool_count with hc | hc
      · rw [hc] at hlast
        simp at hlast
      · have hlenpos : 0 < st.1.chunk_pool.length := List.length_pos.2 (by
          intro hnil
          rw [hnil] at hlast
          simp at hlast)
        simp only [List.length_append, List.length_cons, List.length_nil, List.length_dropLast]
        omega
    · dsimp only
      intro x hx
      rcases hJ.pool_mem x hx with hmem | hmem
      · rw [← hPsplit] at hmem
        rcases List.mem_append.1 hmem with hmem | hmem
        · exact Or.inl hmem
        · exact Or.inr (List.mem_append_right _ hmem)
      · exact Or.inr (List.mem_append_left _ hmem)
    · dsimp only
      intro x hx
      have hxP : x ∈ st.1.chunk_pool := hdropsub x hx
      have hxw : x ∈ w.chunk_pool := by
        rw [← ht]
        exact List.mem_append_left _ hxP
      have hxe : x ≠ e := fun h => hedrop (h ▸ hx)
      rw [hold x hxe (Nat.lt_of_lt_of_le (hw.pool_lt x hxw) hJ.alen)]
      exact hJ.pool_rec x hxP
  · -- fresh handle: the pool is empty, a new entity is allocated
    subst he hA hpool
    have hecc : ∀ x ∈ st.2, x < st.1.arena.length := hJ.acc_lt
    have heacc : st.1.arena.length ∉ st.2 := fun h => Nat.lt_irrefl _ (hecc _ h)
    have hAeq : ((st.1.arena ++ [defaultEntity]).set st.1.arena.length
        (groundCfg ctx st.1.biome_map ((st.1.arena ++ [defaultEntity]).getD
          st.1.arena.length defaultEntity) (cp.1 * 16 + (c.1 : ℤ)) (cp.2 * 16 + (c.2 : ℤ))
          (step_y ctx st.1 (cp.1 * 16 + (c.1 : ℤ)) (cp.2 * 16 + (c.2 : ℤ))))) ++ ext
        = (st.1.arena ++ [groundCfg ctx st.1.biome_map defaultEntity
            (cp.1 * 16 + (c.1 : ℤ)) (cp.2 * 16 + (c.2 : ℤ))
            (step_y ctx st.1 (cp.1 * 16 + (c.1 : ℤ)) (cp.2 * 16 + (c.2 : ℤ)))]) ++ ext := by
      rw [getD_concat_length, set_concat_length]
    have hold : ∀ i, i < st.1.arena.length →
        ((st.1.arena ++ [groundCfg ctx st.1.biome_map defaultEntity
          (cp.1 * 16 + (c.1 : ℤ)) (cp.2 * 16 + (c.2 : ℤ))
          (step_y ctx st.1 (cp.1 * 16 + (c.1 : ℤ)) (cp.2 * 16 + (c.2 : ℤ)))]) ++ ext).getD i
            defaultEntity = st.1.arena.getD i defaultEntity := by
      intro i hi
      rw [getD_append_left _ _ _ (by simp only [List.length_append, List.length_cons, List.length_nil]; omega), getD_append_left _ _ _ hi]
    have hnew : ((st.1.arena ++ [groundCfg ctx st.1.biome_map defaultEntity
        (cp.1 * 16 + (c.1 : ℤ)) (cp.2 * 16 + (c.2 : ℤ))
        (step_y ctx st.1 (cp.1 * 16 + (c.1 : ℤ)) (cp.2 * 16 + (c.2 : ℤ)))]) ++ ext).getD
          st.1.arena.length defaultEntity
        = groundCfg ctx st.1.biome_map defaultEntity
            (cp.1 * 16 + (c.1 : ℤ)) (cp.2 * 16 + (c.2 : ℤ))
            (step_y ctx st.1 (cp.1 * 16 + (c.1 : ℤ)) (cp.2 * 16 + (c.2 : ℤ))) := by
      rw [getD_append_left _ _ _ (by simp only [List.length_append, List.length_cons, List.length_nil]; omega), getD_concat_length]
    refine ⟨hJ.biome, hJ.loaded, hcohimp hJ.coh, ?_, ?_, ?_, ?_, ?_, ?_, ?_, ?_, ?_, ?_,
      ?_, ?_, ?_, ?_, ?_⟩
    · exact hJ.pool_pre
    · dsimp only
      rw [hAeq]
      have := hJ.alen
      simp only [List.length_append, List.length_cons, List.length_nil]
      omega
    · dsimp only
      rw [List.nodup_append]
      exact ⟨hJ.acc_nodup, List.nodup_singleton _,
        fun a ha hae => heacc ((List.mem_singleton.1 hae) ▸ ha)⟩
    · dsimp only
      rw [hAeq]
      intro x hx
      simp only [List.length_append, List.length_cons, List.length_nil]
      rcases List.mem_append.1 hx with hx | hx
      · have := hJ.acc_lt x hx
        omega
      · rw [List.mem_singleton.1 hx]
        omega
    · dsimp only
      intro x hx
      rw [hemp] at hx
      simp at hx
    · dsimp only
      rw [hAeq, List.map_append, List.map_append]
      congr 1
      · refine (List.map_congr_left ?_).trans hJ.configs
        intro a ha
        rw [hold a (hJ.acc_lt a ha)]
      · rw [List.map_singleton, List.map_singleton, hnew]
        rw [step_y_coherent ctx st.1 _ _ hJ.coh, hJ.biome]
        simp [obsConfig, groundCfg, pureCellConfig]
    · dsimp only
      rw [hAeq]
      intro x hx
      rcases List.mem_append.1 hx with hx | hx
      · rw [hold x (hJ.acc_lt x hx)]
        exact hJ.acc_ground x hx
      · rw [List.mem_singleton.1 hx, hnew]
        simp [groundCfg]
    · dsimp only
      rw [hAeq, newGround_concat st.1.arena ext _ hJ.alen (by simp [groundCfg])
        (fun x hx => (hext x hx).1)]
      have h1 : (st.1.chunk_pool ++ (st.2 ++ [st.1.arena.length])).Perm
          ((w.chunk_pool ++ newGround w.arena.length st.1.arena) ++ [st.1.arena.length]) := by
        rw [← List.append_assoc]
        exact hJ.perm.append_right _
      rw [List.append_assoc] at h1
      exact h1
    · dsimp only
      rw [hAeq]
      intro i hi
      rw [hold i (Nat.lt_of_lt_of_le hi hJ.alen)]
      exact hJ.old_orig i hi
    · dsimp only
      rw [hAeq]
      intro i hi hng
      simp only [List.length_append, List.length_cons, List.length_nil] at hi
      by_cases hie : i = st.1.arena.length
      · subst hie
        rw [hnew] at hng ⊢
        exact absurd (by simp [groundCfg]) hng
      · by_cases hilt : i < st.1.arena.length
        · rw [hold i hilt] at hng ⊢
          exact hJ.trees_on i hilt hng
        · have hge : st.1.arena.length + 1 ≤ i := by omega
          have hgd : ((st.1.arena ++ [groundCfg ctx st.1.biome_map defaultEntity
              (cp.1 * 16 + (c.1 : ℤ)) (cp.2 * 16 + (c.2 : ℤ))
              (step_y ctx st.1 (cp.1 * 16 + (c.1 : ℤ)) (cp.2 * 16 + (c.2 : ℤ)))]) ++ ext).getD i
                defaultEntity
              = ext.getD (i - (st.1.arena.length + 1)) defaultEntity := by
            rw [getD_append_right _ _ _ (by simp only [List.length_append, List.length_cons, List.length_nil]; omega)]
            congr 1
            simp only [List.length_append, List.length_cons, List.length_nil]
          rw [hgd] at hng ⊢
          exact (hext _ (getD_mem_of_lt ext defaultEntity (by omega))).2
    · dsimp only
      rw [hAeq]
      intro x hx
      rcases List.mem_append.1 hx with hx | hx
      · rw [hold x (hJ.acc_lt x hx)]
        exact hJ.enabled_eq x hx
      · rw [List.mem_singleton.1 hx, hnew]
        rw [if_neg (by have := hJ.alen; omega)]
        rfl
    · dsimp only
      rw [hAeq]
      intro x hx
      rcases List.mem_append.1 hx with hx | hx
      · rw [hold x (hJ.acc_lt x hx)]
        exact hJ.coll x hx
      · rw [List.mem_singleton.1 hx, hnew]
        unfold colliderOk groundCfg
        by_cases h2 : step_y ctx st.1 (cp.1 * 16 + (c.1 : ℤ)) (cp.2 * 16 + (c.2 : ℤ)) ≤ 2
      <;> simp [h2]
    · dsimp only
      exact Or.inl hemp
    · dsimp only
      intro x hx
      rcases hJ.pool_mem x hx with hmem | hmem
      · exact Or.inl hmem
      · exact Or.inr (List.mem_append_left _ hmem)
    · dsimp only
      intro x hx
      rw [hemp] at hx
      simp at hx

theorem genInv_fold (ctx : Ctx) (cp : ℤ × ℤ) (w : World) (hw : BaseOk ctx w) :
    ∀ (cs ps : List (ℕ × ℕ)) (st : World × List ℕ),
      GenInv ctx cp w ps st →
      GenInv ctx cp w (ps ++ cs) (cs.foldl (cellStep ctx cp) st) := by
  intro cs
  induction cs with
  | nil =>
    intro ps st h
    rw [List.append_nil]
    exact h
  | cons c cs ih =>
    intro ps st h
    have h2 := ih (ps ++ [c]) _ (genInv_step ctx cp w hw ps st c h)
    rw [List.append_assoc] at h2
    exact h2

/-- `generate_chunk` in terms of the cell-loop invariant: the loop runs
from `(w, [])` through all `16 × 16` cells, then the handle list is stored
under `cp`. -/
theorem generate_chunk_eq (ctx : Ctx) (cp : ℤ × ℤ) (w : World) :
    generate_chunk ctx cp w =
      { (cellList.foldl (cellStep ctx cp) (w, [])).1 with
          loaded_chunks := assocUpd cp (cellList.foldl (cellStep ctx cp) (w, [])).2
            (cellList.foldl (cellStep ctx cp) (w, [])).1.loaded_chunks } := by
  unfold generate_chunk
  rfl

theorem generate_chunk_spec (ctx : Ctx) (cp : ℤ × ℤ) (w : World) (hw : BaseOk ctx w) :
    ∃ st : World × List ℕ,
      generate_chunk ctx cp w =
        { st.1 with loaded_chunks := assocUpd cp st.2 st.1.loaded_chunks } ∧
      GenInv ctx cp w cellList st := by
  refine ⟨cellList.foldl (cellStep ctx cp) (w, []), generate_chunk_eq ctx cp w, ?_⟩
  have h := genInv_fold ctx cp w hw cellList [] (w, []) (genInv_init ctx cp w hw)
  rw [List.nil_append] at h
  exact h

theorem treeCount_set_le (a : List EntityRec) (r : EntityRec)
    (hr : r.origin = Origin.ground) : ∀ i : ℕ, treeCount (a.set i r) ≤ treeCount a := by
  induction a with
  | nil => intro i; simp
  | cons x xs ih =>
    intro i
    cases i with
    | zero =>
      simp only [List.set_cons_zero]
      by_cases hx : x.origin = Origin.ground
      · simp [treeCount, List.filter_cons, hx, hr]
      · simp only [treeCount, List.filter_cons]
        rw [if_neg (by simp [hr]), if_pos (by simpa using hx)]
        simp
    | succ j =>
      simp only [List.set_cons_succ]
      have := ih j
      simp only [treeCount, List.filter_cons] at this ⊢
      by_cases hx : x.origin = Origin.ground
      · rw [if_neg (by simp [hx]), if_neg (by simp [hx])]
        exact this
      · rw [if_pos (by simpa using hx), if_pos (by simpa using hx)]
        simpa using this

theorem treeCount_mono_step (ctx : Ctx) (cp : ℤ × ℤ) (w : World) (hw : BaseOk ctx w)
    (ps : List (ℕ × ℕ)) (st : World × List ℕ) (c : ℕ × ℕ)
    (hJ : GenInv ctx cp w ps st) :
    treeCount st.1.arena ≤ treeCount (cellStep ctx cp st c).1.arena := by
  rcases cellStep_spec ctx cp st c with
    ⟨e, A₀, ext, cache', log', du, di, pool', heq, hcase, hext, -, -, -⟩
  rw [heq]
  dsimp only
  rw [treeCount_append]
  rcases hcase with ⟨hlast, hA, -⟩ | ⟨-, he, hA, -⟩
  · subst hA
    have heP : e ∈ st.1.chunk_pool := by
      rw [← List.dropLast_append_getLast? e hlast]
      simp
    rcases hJ.pool_pre with ⟨t, ht⟩
    have hePw : e ∈ w.chunk_pool := by
      rw [← ht]
      exact List.mem_append_left _ heP
    have horig : (st.1.arena.getD e defaultEntity).origin = Origin.ground := by
      rw [hJ.pool_rec e heP]
      exact hw.pool_ground e hePw
    rw [treeCount_set_ground _ _ e horig (by simp [groundCfg])]
    exact Nat.le_add_right _ _
  · subst he hA
    have hA0 : treeCount (st.1.arena ++ [defaultEntity]) = treeCount st.1.arena := by
      rw [treeCount_append]
      simp [treeCount, defaultEntity]
    have horig : ((st.1.arena ++ [defaultEntity]).getD st.1.arena.length defaultEntity).origin
        = Origin.ground := by
      rw [getD_concat_length]
      rfl
    rw [treeCount_set_ground _ _ st.1.arena.length horig (by simp [groundCfg]), hA0]
    exact Nat.le_add_right _ _

theorem treeCount_mono_fold (ctx : Ctx) (cp : ℤ × ℤ) (w : World) (hw : BaseOk ctx w) :
    ∀ (cs ps : List (ℕ × ℕ)) (st : World × List ℕ),
      GenInv ctx cp w ps st →
      treeCount st.1.arena ≤ treeCount ((cs.foldl (cellStep ctx cp) st)).1.arena := by
  intro cs
  induction cs with
  | nil => intro ps st _; exact Nat.le_refl _
  | cons c cs ih =>
    intro ps st h
    exact Nat.le_trans (treeCount_mono_step ctx cp w hw ps st c h)
      (ih (ps ++ [c]) _ (genInv_step ctx cp w hw ps st c h))

/-! ### Small derived lemmas used by the claim theorems -/

theorem lookupD_upd_self {κ α : Type} [DecidableEq κ] (k : κ) (v : α) (l : List (κ × α))
    (d : α) : lookupD k (assocUpd k v l) d = v := by
  rw [lookupD, assocGet_upd_self]
  rfl

theorem containsKey_upd_self {κ α : Type} [DecidableEq κ] (k : κ) (v : α) (l : List (κ × α)) :
    containsKey k (assocUpd k v l) = true := by
  rw [containsKey, assocGet_upd_self]
  rfl

theorem containsKey_upd_mono {κ α : Type} [DecidableEq κ] {k k' : κ} (v : α)
    {l : List (κ × α)} (h : containsKey k l = true) :
    containsKey k (assocUpd k' v l) = true := by
  by_cases hk : k = k'
  · subst hk
    exact containsKey_upd_self k v l
  · rw [containsKey, assocGet_upd_ne hk, ← containsKey]
    exact h

/-! ### C7: unload of an absent chunk is a no-op; double unload -/

/-- C7: unloading a chunk coordinate that is not loaded leaves the whole
world state unchanged and raises no error (the operation is total), and
unloading twice in a row produces the same end state as unloading once. -/
theorem unload_idempotent (w : World) (cp : ℤ × ℤ) :
    (containsKey cp w.loaded_chunks = false → unload_chunk cp w = w) ∧
    unload_chunk cp (unload_chunk cp w) = unload_chunk cp w := by
  refine ⟨fun h => unload_not_loaded h, ?_⟩
  by_cases h : containsKey cp w.loaded_chunks = true
  · rcases unload_spec cp w h with ⟨a', heq, -, -, -, -⟩
    refine unload_not_loaded ?_
    rw [heq]
    exact containsKey_del_self cp w.loaded_chunks
  · have h' : containsKey cp w.loaded_chunks = false := by simpa using h
    rw [unload_not_loaded h', unload_not_loaded h']

/-- Witness for C7 at a concrete world and coordinate. -/
theorem unload_idempotent_witness :
    (containsKey (0, 0) World.empty.loaded_chunks = false →
      unload_chunk (0, 0) World.empty = World.empty) ∧
    unload_chunk (0, 0) (unload_chunk (0, 0) World.empty) =
      unload_chunk (0, 0) World.empty :=
  unload_idempotent World.empty (0, 0)

/-! ### C4: the biome seed region -/

/-- C4 counterexample: the claim places the seed points uniformly over
`[-32, 32) × [-32, 32)`, but the code draws `random.uniform(-16, 16)`:
the point coordinate `-20` lies in the claimed region yet is unreachable
by any unit draw. -/
theorem biome_seed_region_cex :
    ((-32 : ℚ) ≤ -20 ∧ (-20 : ℚ) < 32) ∧ ¬ seedCovers (-20) := by
  refine ⟨⟨by norm_num, by norm_num⟩, ?_⟩
  rintro ⟨u, h0, h1, he⟩
  unfold uniformQ at he
  nlinarith

/-- C4 amended: at world initialization, the eight biome seed points are
drawn via `random.uniform(-16, 16)` per coordinate, so (for unit draws in
`[0, 1]`) every seed point lies in `[-16, 16] × [-16, 16]` — a strict
sub-region of the `[-32, 32) × [-32, 32)` area spanned by the coarse
cells of the biome map. -/
theorem biome_seed_region (ctx : Ctx) (hu : ∀ i, 0 ≤ ctx.uni i ∧ ctx.uni i ≤ 1) :
    (biomePoints ctx).length = 8 ∧
    ∀ p ∈ biomePoints ctx,
      ((-16 ≤ p.1 ∧ p.1 ≤ 16) ∧ (-16 ≤ p.2 ∧ p.2 ≤ 16)) ∧
      ((-32 < p.1 ∧ p.1 < 32) ∧ (-32 < p.2 ∧ p.2 < 32)) := by
  constructor
  · rfl
  · intro p hp
    unfold biomePoints at hp
    rcases List.mem_map.1 hp with ⟨i, -, rfl⟩
    unfold uniformQ
    rcases hu (2 * i) with ⟨h0, h1⟩
    rcases hu (2 * i + 1) with ⟨h0', h1'⟩
    dsimp only
    refine ⟨⟨⟨by nlinarith, by nlinarith⟩, ⟨by nlinarith, by nlinarith⟩⟩,
      ⟨⟨by nlinarith, by nlinarith⟩, ⟨by nlinarith, by nlinarith⟩⟩⟩

/-- Witness for C4 (amended) with the constant-half uniform stream. -/
theorem biome_seed_region_witness :
    (∀ i, 0 ≤ (Ctx.mk (fun _ _ => 0) (fun _ => 1/2) (fun _ => 0) (fun _ => 0)).uni i ∧
      (Ctx.mk (fun _ _ => 0) (fun _ => 1/2) (fun _ => 0) (fun _ => 0)).uni i ≤ 1) ∧
    ((biomePoints (Ctx.mk (fun _ _ => 0) (fun _ => 1/2) (fun _ => 0) (fun _ => 0))).length = 8 ∧
    ∀ p ∈ biomePoints (Ctx.mk (fun _ _ => 0) (fun _ => 1/2) (fun _ => 0) (fun _ => 0)),
      ((-16 ≤ p.1 ∧ p.1 ≤ 16) ∧ (-16 ≤ p.2 ∧ p.2 ≤ 16)) ∧
      ((-32 < p.1 ∧ p.1 < 32) ∧ (-32 < p.2 ∧ p.2 < 32))) :=
  ⟨fun i => ⟨by norm_num, by norm_num⟩,
    biome_seed_region _ (fun i => ⟨by norm_num, by norm_num⟩)⟩

/-! ### C6: the noise cache is a pure memoization layer -/

theorem nodup_filter_eq_le_one {α : Type} [DecidableEq α] {l : List α} (h : l.Nodup)
    (k : α) : (l.filter fun q => decide (q = k)).length ≤ 1 := by
  induction l with
  | nil => simp
  | cons x xs ih =>
    rcases List.nodup_cons.1 h with ⟨hx, hxs⟩
    rw [List.filter_cons]
    by_cases hxk : x = k
    · subst hxk
      have hnil : xs.filter (fun q => decide (q = x)) = [] := by
        rw [List.filter_eq_nil_iff]
        intro a ha hak
        rw [decide_eq_true_eq] at hak
        exact hx (hak ▸ ha)
      rw [if_pos (by simp)]
      simp [hnil]
    · rw [if_neg (by simpa using hxk)]
      exact ih hxs

theorem get_noise_val_eq (ctx : Ctx) (x z : ℤ) (w : World) :
    (get_noise ctx x z w).1 = lookupD (x, z) (get_noise ctx x z w).2.noise_cache 0 := by
  unfold get_noise
  split <;> rfl

theorem runNoise_inv (ctx : Ctx) :
    ∀ (qs : List (ℤ × ℤ)) (w : World), w.log.Nodup →
      (∀ k ∈ w.log, containsKey k w.noise_cache = true) →
      (runNoise ctx qs w).log.Nodup ∧
      (∀ k ∈ (runNoise ctx qs w).log, containsKey k (runNoise ctx qs w).noise_cache = true) := by
  intro qs
  induction qs with
  | nil => exact fun w h1 h2 => ⟨h1, h2⟩
  | cons q qs ih =>
    intro w h1 h2
    refine ih (get_noise ctx q.1 q.2 w).2 ?_ ?_
    · unfold get_noise
      by_cases hc : containsKey (q.1, q.2) w.noise_cache
      · rw [if_pos hc]
        exact h1
      · rw [if_neg hc]
        dsimp only
        rw [List.nodup_append]
        refine ⟨h1, List.nodup_singleton _, fun a ha hae => ?_⟩
        rw [List.mem_singleton.1 hae] at ha
        exact hc (h2 _ ha)
    · unfold get_noise
      by_cases hc : containsKey (q.1, q.2) w.noise_cache
      · rw [if_pos hc]
        exact h2
      · rw [if_neg hc]
        dsimp only
        intro k hk
        rcases List.mem_append.1 hk with hk | hk
        · exact containsKey_upd_mono _ (h2 k hk)
        · rw [List.mem_singleton.1 hk]
          simp [containsKey, assocGet_upd_self]

/-- C6: the height cache is a pure memoization layer.  Calling `get_noise`
twice for the same world coordinate returns the identical value both times
and the second call does not change the state at all; and over any run of
queries, each coordinate appears at most once in the (ghost) log of
underlying noise invocations — the cache never recomputes a
previously-seen coordinate. -/
theorem noise_cache_idempotent (ctx : Ctx) (x z : ℤ) (w : World) (qs : List (ℤ × ℤ))
    (hnodup : w.log.Nodup) (hsub : ∀ k ∈ w.log, containsKey k w.noise_cache = true) :
    ((get_noise ctx x z (get_noise ctx x z w).2).1 = (get_noise ctx x z w).1 ∧
      (get_noise ctx x z (get_noise ctx x z w).2).2 = (get_noise ctx x z w).2) ∧
    ((runNoise ctx qs w).log.Nodup ∧
      ∀ k, ((runNoise ctx qs w).log.filter fun q => decide (q = k)).length ≤ 1) := by
  have hstable : (get_noise ctx x z (get_noise ctx x z w).2).2 = (get_noise ctx x z w).2 :=
    get_noise_cache_stable ctx x z _ (get_noise_contains_after ctx x z w)
  have hrun := runNoise_inv ctx qs w hnodup hsub
  refine ⟨⟨?_, hstable⟩, hrun.1, fun k => nodup_filter_eq_le_one hrun.1 k⟩
  rw [get_noise_val_eq ctx x z (get_noise ctx x z w).2, hstable,
    get_noise_val_eq ctx x z w]

/-- Witness for C6 at a concrete coordinate, world and query list. -/
theorem noise_cache_idempotent_witness :
    ((get_noise ctx0 0 0 (get_noise ctx0 0 0 World.empty).2).1 =
        (get_noise ctx0 0 0 World.empty).1 ∧
      (get_noise ctx0 0 0 (get_noise ctx0 0 0 World.empty).2).2 =
        (get_noise ctx0 0 0 World.empty).2) ∧
    ((runNoise ctx0 [(0, 0), (1, 2), (0, 0)] World.empty).log.Nodup ∧
      ∀ k, ((runNoise ctx0 [(0, 0), (1, 2), (0, 0)] World.empty).log.filter
        fun q => decide (q = k)).length ≤ 1) :=
  noise_cache_idempotent ctx0 0 0 World.empty [(0, 0), (1, 2), (0, 0)]
    List.nodup_nil (by intro k hk; simp [World.empty] at hk)

theorem baseOk_empty (ctx : Ctx) : BaseOk ctx World.empty :=
  ⟨List.nodup_nil, by simp [World.empty], by simp [World.empty],
    by simp [World.empty], by intro p hp; simp [World.empty] at hp⟩

/-! ### C8: the collider rule -/

/-- C8: for every ground-cell handle of a freshly generated chunk, a box
collider is attached exactly when the stored height (the `y` of the cell's
position) is at most `2`; otherwise the cell has no collider. -/
theorem collider_iff_low (ctx : Ctx) (cp : ℤ × ℤ) (w : World) (hw : BaseOk ctx w) :
    ∀ e ∈ lookupD cp (generate_chunk ctx cp w).loaded_chunks [],
      (((generate_chunk ctx cp w).arena.getD e defaultEntity).collider = some ColliderKind.box ↔
        ((generate_chunk ctx cp w).arena.getD e defaultEntity).position.2.1 ≤ 2) ∧
      (((generate_chunk ctx cp w).arena.getD e defaultEntity).collider = some ColliderKind.box ∨
        ((generate_chunk ctx cp w).arena.getD e defaultEntity).collider = none) := by
  rcases generate_chunk_spec ctx cp w hw with ⟨st, heq, hinv⟩
  rw [heq]
  dsimp only
  rw [lookupD_upd_self]
  intro e he
  refine ⟨hinv.coll e he, ?_⟩
  have hcfg := hinv.configs
  have hmem : obsConfig (st.1.arena.getD e defaultEntity) ∈
      cellList.map (pureCellConfig ctx w.biome_map cp) := by
    rw [← hcfg]
    exact List.mem_map_of_mem _ he
  rcases List.mem_map.1 hmem with ⟨c, -, hc⟩
  have : (st.1.arena.getD e defaultEntity).collider = (pureCellConfig ctx w.biome_map cp c).2.2 := by
    have := congrArg (fun t => t.2.2) hc
    simpa [obsConfig] using this.symm
  rw [this]
  unfold pureCellConfig
  dsimp only
  by_cases hy : pureY ctx (cp.1 * 16 + (c.1 : ℤ)) (cp.2 * 16 + (c.2 : ℤ)) ≤ 2
  · rw [if_pos hy]
    exact Or.inl rfl
  · rw [if_neg hy]
    exact Or.inr rfl

/-- Witness for C8 on the empty base world with the zero context. -/
theorem collider_iff_low_witness :
    BaseOk ctx0 World.empty ∧
    ∀ e ∈ lookupD (0, 0) (generate_chunk ctx0 (0, 0) World.empty).loaded_chunks [],
      (((generate_chunk ctx0 (0, 0) World.empty).arena.getD e defaultEntity).collider
          = some ColliderKind.box ↔
        ((generate_chunk ctx0 (0, 0) World.empty).arena.getD e defaultEntity).position.2.1 ≤ 2) ∧
      (((generate_chunk ctx0 (0, 0) World.empty).arena.getD e defaultEntity).collider
          = some ColliderKind.box ∨
        ((generate_chunk ctx0 (0, 0) World.empty).arena.getD e defaultEntity).collider = none) :=
  ⟨baseOk_empty ctx0, collider_iff_low ctx0 (0, 0) World.empty (baseOk_empty ctx0)⟩

/-! ### C9: tree gating -/

/-- C9: in the cell step of `generate_chunk`, when the computed height `y`
of the cell is at most `2` no tree is ever spawned — the tree count of the
arena does not grow and the uniform random stream is not even consulted
(the cursor does not move), regardless of the draw values; trees can only
appear when `2 < y`. -/
theorem tree_gating (ctx : Ctx) (cp : ℤ × ℤ) (st : World × List ℕ) (c : ℕ × ℕ)
    (hy : step_y ctx st.1 (cp.1 * 16 + (c.1 : ℤ)) (cp.2 * 16 + (c.2 : ℤ)) ≤ 2) :
    treeCount (cellStep ctx cp st c).1.arena ≤ treeCount st.1.arena ∧
    (cellStep ctx cp st c).1.uidx = st.1.uidx ∧
    (cellStep ctx cp st c).1.iidx = st.1.iidx := by
  rcases cellStep_spec ctx cp st c with
    ⟨e, A₀, ext, cache', log', du, di, pool', heq, hcase, -, -, hlow, -⟩
  rcases hlow hy with ⟨hext0, hdu, hdi⟩
  subst hext0 hdu hdi
  rw [heq]
  dsimp only
  refine ⟨?_, Nat.add_zero _, Nat.add_zero _⟩
  rw [List.append_nil]
  rcases hcase with ⟨-, hA, -⟩ | ⟨-, he, hA, -⟩
  · subst hA
    exact treeCount_set_le _ _ (by simp [groundCfg]) e
  · subst he hA
    refine Nat.le_trans (treeCount_set_le _ _ (by simp [groundCfg]) st.1.arena.length) ?_
    rw [treeCount_append]
    simp [treeCount, defaultEntity]

/-- Witness for C9: with the zero-noise context the first cell of chunk
`(0,0)` has height `0 ≤ 2`, and the step spawns nothing. -/
theorem tree_gating_witness :
    step_y ctx0 (World.empty, ([] : List ℕ)).1 ((0, 0).1 * 16 + ((0, 0).1 : ℤ))
        ((0, 0).2 * 16 + ((0, 0).2 : ℤ)) ≤ 2 ∧
    (treeCount (cellStep ctx0 (0, 0) (World.empty, []) (0, 0)).1.arena ≤
        treeCount (World.empty, ([] : List ℕ)).1.arena ∧
      (cellStep ctx0 (0, 0) (World.empty, []) (0, 0)).1.uidx =
        (World.empty, ([] : List ℕ)).1.uidx ∧
      (cellStep ctx0 (0, 0) (World.empty, []) (0, 0)).1.iidx =
        (World.empty, ([] : List ℕ)).1.iidx) :=
  have hy : step_y ctx0 (World.empty, ([] : List ℕ)).1 ((0, 0).1 * 16 + ((0, 0).1 : ℤ))
      ((0, 0).2 * 16 + ((0, 0).2 : ℤ)) ≤ 2 := by
    norm_num [step_y, step_height, pureHeight, detailNoise, assocGet, ctx0, World.empty]
  ⟨hy, tree_gating ctx0 (0, 0) (World.empty, []) (0, 0) hy⟩

theorem cellList_split : cellList = (0, 0) :: cellTail := rfl

theorem cellList_length : cellList.length = 256 := rfl

/-! ### C1: recycled handles keep their stale `enabled` flag -/

/-- C1 (code bug): `generate_chunk` overwrites model, position, color,
scale and collider of every handle it acquires, but never writes
`enabled`.  A chunk built from fresh handles is fully enabled, while a
handle that was disabled by `unload_chunk` and then recycled stays
disabled inside the new chunk — so a chunk built from recycled handles is
observably different from a fresh one, contradicting the claim. -/
theorem pool_reuse_enabled_leak (ctx : Ctx) (cp : ℤ × ℤ) (w : World) (hw : BaseOk ctx w) :
    (w.chunk_pool = [] →
      ∀ e ∈ lookupD cp (generate_chunk ctx cp w).loaded_chunks [],
        ((generate_chunk ctx cp w).arena.getD e defaultEntity).enabled = true) ∧
    (∀ e, w.chunk_pool = [e] →
      (w.arena.getD e defaultEntity).enabled = false →
      e ∈ lookupD cp (generate_chunk ctx cp w).loaded_chunks [] ∧
      ((generate_chunk ctx cp w).arena.getD e defaultEntity).enabled = false) := by
  rcases generate_chunk_spec ctx cp w hw with ⟨st, heq, hinv⟩
  rw [heq]
  dsimp only
  rw [lookupD_upd_self]
  constructor
  · intro hpool e he
    have hee := hinv.enabled_eq e he
    by_cases hlt : e < w.arena.length
    · have hmem : e ∈ w.chunk_pool ++ newGround w.arena.length st.1.arena :=
        hinv.perm.mem_iff.1 (List.mem_append_right _ he)
      rw [hpool, List.nil_append] at hmem
      have hge : w.arena.length ≤ e := by
        unfold newGround at hmem
        rcases List.mem_filter.1 hmem with ⟨hr, -⟩
        exact (List.mem_range'_1.1 hr).1
      omega
    · rw [hee, if_neg hlt]
  · intro e hpool hdis
    have hlen : st.2.length = 256 := by
      have h1 := congrArg List.length hinv.configs
      rw [List.length_map, List.length_map] at h1
      rw [h1]
      exact cellList_length
    have hpoolnil : st.1.chunk_pool = [] := by
      rcases hinv.pool_count with h | h
      · exact h
      · rw [hpool, hlen] at h
        exact absurd h (by simp; omega)
    have hew : e ∈ w.chunk_pool := by
      rw [hpool]
      simp
    have hmem : e ∈ st.2 := by
      rcases hinv.pool_mem e hew with h | h
      · rw [hpoolnil] at h
        simp at h
      · exact h
    refine ⟨hmem, ?_⟩
    rw [hinv.enabled_eq e hmem, if_pos (hw.pool_lt e hew)]
    exact hdis

/-- Witness for C1: in `w_c1` the recycled handle `0` ends up in the new
chunk still disabled. -/
theorem pool_reuse_enabled_leak_witness :
    (BaseOk ctx0 w_c1 ∧ w_c1.chunk_pool = [0] ∧
      (w_c1.arena.getD 0 defaultEntity).enabled = false) ∧
    (0 ∈ lookupD (0, 0) (generate_chunk ctx0 (0, 0) w_c1).loaded_chunks [] ∧
      ((generate_chunk ctx0 (0, 0) w_c1).arena.getD 0 defaultEntity).enabled = false) :=
  have hb : BaseOk ctx0 w_c1 :=
    ⟨by decide, by decide, by decide, by decide,
      by intro p hp; simp [w_c1, World.empty] at hp⟩
  ⟨⟨hb, rfl, rfl⟩, (pool_reuse_enabled_leak ctx0 (0, 0) w_c1 hb).2 0 rfl rfl⟩

/-! ### C2: tree primitives survive `unload_chunk` -/

theorem arena_update_loaded (w : World) (L : List ((ℤ × ℤ) × List ℕ)) :
    ({ w with loaded_chunks := L } : World).arena = w.arena := rfl

theorem loaded_update_loaded (w : World) (L : List ((ℤ × ℤ) × List ℕ)) :
    ({ w with loaded_chunks := L } : World).loaded_chunks = L := rfl

theorem treeCount_spawn_step (ctx : Ctx) (cp : ℤ × ℤ) (w : World) (hw : BaseOk ctx w)
    (c : ℕ × ℕ)
    (hy : 2 < step_y ctx w (cp.1 * 16 + (c.1 : ℤ)) (cp.2 * 16 + (c.2 : ℤ)))
    (hu : ctx.uni w.uidx < 1/10) :
    treeCount w.arena + 1 ≤ treeCount (cellStep ctx cp (w, []) c).1.arena := by
  rcases cellStep_spec ctx cp (w, []) c with
    ⟨e, A₀, ext, cache', log', du, di, pool', heq, hcase, hext, -, -, hspawn⟩
  have hne : ext ≠ [] := hspawn hy hu
  have hext1 : 1 ≤ treeCount ext := by
    rw [treeCount_eq_length (fun r hr => (hext r hr).1)]
    exact List.length_pos.2 hne
  rw [heq]
  dsimp only
  rw [treeCount_append]
  rcases hcase with ⟨hlast, hA, -⟩ | ⟨-, he, hA, -⟩
  · subst hA
    have heP : e ∈ w.chunk_pool := by
      have := List.dropLast_append_getLast? e hlast
      dsimp only at this
      rw [← this]
      simp
    have horig : (w.arena.getD e defaultEntity).origin = Origin.ground :=
      hw.pool_ground e heP
    rw [treeCount_set_ground _ _ e horig (by simp [groundCfg])]
    omega
  · subst he hA
    have horig : ((w.arena ++ [defaultEntity]).getD w.arena.length defaultEntity).origin
        = Origin.ground := by
      rw [getD_concat_length]
      rfl
    rw [treeCount_set_ground _ _ _ horig (by simp [groundCfg]), treeCount_append]
    have hz : treeCount [defaultEntity] = 0 := by
      simp [treeCount, defaultEntity]
    rw [hz]
    omega

/-- C2 (code bug): `generate_procedural_tree` never records the trunk or
foliage entities anywhere, so `unload_chunk` — which only touches the
handles in the chunk's list — destroys nothing at all: the chunk is
removed from `loaded_chunks`, the arena keeps its full length, at least
one tree primitive exists after a generation whose first cell spawned a
tree, and every tree primitive is still alive and enabled after the
unload, contradicting the claim that tree entities are destroyed
outright. -/
theorem tree_leak_on_unload (ctx : Ctx) (cp : ℤ × ℤ) (w : World) (hw : BaseOk ctx w)
    (hy : 2 < step_y ctx w (cp.1 * 16 + ((0 : ℕ) : ℤ)) (cp.2 * 16 + ((0 : ℕ) : ℤ)))
    (hu : ctx.uni w.uidx < 1/10) :
    containsKey cp (unload_chunk cp (generate_chunk ctx cp w)).loaded_chunks = false ∧
    (unload_chunk cp (generate_chunk ctx cp w)).arena.length
      = (generate_chunk ctx cp w).arena.length ∧
    treeCount w.arena + 1 ≤ treeCount (unload_chunk cp (generate_chunk ctx cp w)).arena ∧
    (∀ i, i < (unload_chunk cp (generate_chunk ctx cp w)).arena.length →
      ((unload_chunk cp (generate_chunk ctx cp w)).arena.getD i defaultEntity).origin
        ≠ Origin.ground →
      ((unload_chunk cp (generate_chunk ctx cp w)).arena.getD i defaultEntity).enabled
        = true) := by
  have hg := generate_chunk_eq ctx cp w
  have hInv := genInv_fold ctx cp w hw cellList [] (w, []) (genInv_init ctx cp w hw)
  rw [List.nil_append] at hInv
  have hLC : (generate_chunk ctx cp w).loaded_chunks
      = assocUpd cp (cellList.foldl (cellStep ctx cp) (w, [])).2
          (cellList.foldl (cellStep ctx cp) (w, [])).1.loaded_chunks :=
    (congrArg World.loaded_chunks hg).trans
      (loaded_update_loaded (cellList.foldl (cellStep ctx cp) (w, [])).1
        (assocUpd cp (cellList.foldl (cellStep ctx cp) (w, [])).2
          (cellList.foldl (cellStep ctx cp) (w, [])).1.loaded_chunks))
  have hc : containsKey cp (generate_chunk ctx cp w).loaded_chunks = true := by
    rw [hLC]
    exact containsKey_upd_self _ _ _
  rcases unload_spec cp (generate_chunk ctx cp w) hc with ⟨a2, hueq, hulen, huunt, huorig, -⟩
  have hl : lookupD cp (generate_chunk ctx cp w).loaded_chunks []
      = (cellList.foldl (cellStep ctx cp) (w, [])).2 := by
    rw [hLC]
    exact lookupD_upd_self _ _ _ _
  have hga : (generate_chunk ctx cp w).arena
      = (cellList.foldl (cellStep ctx cp) (w, [])).1.arena :=
    (congrArg World.arena hg).trans
      (arena_update_loaded (cellList.foldl (cellStep ctx cp) (w, [])).1
        (assocUpd cp (cellList.foldl (cellStep ctx cp) (w, [])).2
          (cellList.foldl (cellStep ctx cp) (w, [])).1.loaded_chunks))
  refine ⟨?_, ?_, ?_, ?_⟩
  · rw [hueq]
    exact containsKey_del_self _ _
  · rw [hueq]
    exact hulen
  · have h2 : treeCount (unload_chunk cp (generate_chunk ctx cp w)).arena
        = treeCount (generate_chunk ctx cp w).arena := by
      rw [hueq]
      exact treeCount_congr a2 _ hulen huorig
    rw [h2, hga]
    have hST : cellList.foldl (cellStep ctx cp) (w, [])
        = cellTail.foldl (cellStep ctx cp) (cellStep ctx cp (w, []) (0, 0)) := by
      rw [cellList_split, List.foldl_cons]
    have hJ1 := genInv_step ctx cp w hw [] (w, []) (0, 0) (genInv_init ctx cp w hw)
    rw [List.nil_append] at hJ1
    have hmono := treeCount_mono_fold ctx cp w hw cellTail [(0, 0)] _ hJ1
    have hfirst := treeCount_spawn_step ctx cp w hw (0, 0) hy hu
    rw [hST]
    omega
  · intro i hilen hng
    rw [hueq] at hilen hng ⊢
    dsimp only at hilen hng ⊢
    have hng' : (((generate_chunk ctx cp w)).arena.getD i defaultEntity).origin
        ≠ Origin.ground := by
      rw [← huorig i]
      exact hng
    have hnotin : i ∉ lookupD cp (generate_chunk ctx cp w).loaded_chunks [] := by
      intro hin
      rw [hl] at hin
      have := hInv.acc_ground i hin
      rw [← hga] at this
      exact hng' this
    rw [huunt i hnotin]
    have hil2 : i < (cellList.foldl (cellStep ctx cp) (w, [])).1.arena.length := by
      rw [← hga]
      rw [hulen] at hilen
      exact hilen
    have := hInv.trees_on i hil2 (by rw [← hga]; exact hng')
    rw [← hga] at this
    exact this

/-- Witness for C2: constant-5 noise makes every cell high ground and the
zero uniform stream spawns a tree at the very first cell. -/
theorem tree_leak_on_unload_witness :
    (BaseOk ctx1 World.empty ∧
      2 < step_y ctx1 World.empty ((0, 0).1 * 16 + ((0 : ℕ) : ℤ))
        ((0, 0).2 * 16 + ((0 : ℕ) : ℤ)) ∧
      ctx1.uni World.empty.uidx < 1/10) ∧
    (containsKey (0, 0)
        (unload_chunk (0, 0) (generate_chunk ctx1 (0, 0) World.empty)).loaded_chunks = false ∧
      (unload_chunk (0, 0) (generate_chunk ctx1 (0, 0) World.empty)).arena.length
        = (generate_chunk ctx1 (0, 0) World.empty).arena.length ∧
      treeCount World.empty.arena + 1 ≤
        treeCount (unload_chunk (0, 0) (generate_chunk ctx1 (0, 0) World.empty)).arena ∧
      (∀ i, i < (unload_chunk (0, 0) (generate_chunk ctx1 (0, 0) World.empty)).arena.length →
        ((unload_chunk (0, 0) (generate_chunk ctx1 (0, 0) World.empty)).arena.getD i
            defaultEntity).origin ≠ Origin.ground →
        ((unload_chunk (0, 0) (generate_chunk ctx1 (0, 0) World.empty)).arena.getD i
            defaultEntity).enabled = true)) :=
  have hy : 2 < step_y ctx1 World.empty ((0, 0).1 * 16 + ((0 : ℕ) : ℤ))
      ((0, 0).2 * 16 + ((0 : ℕ) : ℤ)) := by
    norm_num [step_y, step_height, pureHeight, detailNoise, assocGet, ctx1, World.empty]
  have hu : ctx1.uni World.empty.uidx < 1/10 := by norm_num [ctx1]
  ⟨⟨baseOk_empty ctx1, hy, hu⟩,
    tree_leak_on_unload ctx1 (0, 0) World.empty (baseOk_empty ctx1) hy hu⟩

/-! ### Handle-partition infrastructure shared by C3, C5 and C10 -/

theorem containsKey_upd {κ α : Type} [DecidableEq κ] (k k' : κ) (v : α) (l : List (κ × α)) :
    containsKey k' (assocUpd k v l) = (containsKey k' l || decide (k' = k)) := by
  by_cases h : k' = k
  · subst h
    rw [containsKey_upd_self]
    simp
  · rw [containsKey, assocGet_upd_ne h, ← containsKey]
    simp [h]

theorem containsKey_del {κ α : Type} [DecidableEq κ] (k k' : κ) (l : List (κ × α)) :
    containsKey k' (assocDel k l) = (containsKey k' l && !decide (k' = k)) := by
  by_cases h : k' = k
  · subst h
    rw [containsKey_del_self]
    simp
  · rw [containsKey, assocGet_del_ne h, ← containsKey]
    simp [h]

theorem assocDel_of_not_contains {κ α : Type} [DecidableEq κ] {k : κ} :
    ∀ {l : List (κ × α)}, containsKey k l = false → assocDel k l = l := by
  intro l
  induction l with
  | nil => intro _; rfl
  | cons e es ih =>
    intro h
    rw [containsKey, assocGet] at h
    by_cases he : e.1 = k
    · rw [if_pos he] at h
      simp at h
    · rw [if_neg he] at h
      rw [assocDel, if_neg he, ih h]

theorem assocDel_sublist {κ α : Type} [DecidableEq κ] (k : κ) (l : List (κ × α)) :
    (assocDel k l).Sublist l := by
  induction l with
  | nil => exact List.Sublist.refl _
  | cons e es ih =>
    by_cases he : e.1 = k
    · rw [assocDel, if_pos he]
      exact ih.trans (List.sublist_cons_self e es)
    · rw [assocDel, if_neg he]
      exact ih.cons₂ e

theorem assocGet_mem_snd {κ α : Type} [DecidableEq κ] {k : κ} {v : α} :
    ∀ {l : List (κ × α)}, assocGet k l = some v → v ∈ l.map (·.2) := by
  intro l
  induction l with
  | nil => intro h; simp [assocGet] at h
  | cons e es ih =>
    intro h
    rw [assocGet] at h
    by_cases he : e.1 = k
    · rw [if_pos he] at h
      simp only [List.map_cons, List.mem_cons]
      exact Or.inl (Option.some.inj h).symm
    · rw [if_neg he] at h
      simp only [List.map_cons, List.mem_cons]
      exact Or.inr (ih h)

theorem assocDel_flatten_perm {κ β : Type} [DecidableEq κ] (k : κ) :
    ∀ l : List (κ × List β), (keysOf l).Nodup → containsKey k l = true →
      (l.map (·.2)).flatten.Perm
        ((assocGet k l).getD [] ++ ((assocDel k l).map (·.2)).flatten) := by
  intro l
  induction l with
  | nil => intro _ h; simp [containsKey, assocGet] at h
  | cons e es ih =>
    intro hnd hc
    have hnd2 : e.1 ∉ keysOf es ∧ (keysOf es).Nodup := by
      have := hnd
      rw [keysOf, List.map_cons, List.nodup_cons] at this
      exact this
    by_cases he : e.1 = k
    · rw [assocGet, if_pos he, assocDel, if_pos he]
      have hkes : containsKey k es = false := by
        rcases hb : containsKey k es with _ | _
        · rfl
        · exact absurd (he ▸ (containsKey_iff_mem_keys k es).1 hb) hnd2.1
      rw [assocDel_of_not_contains hkes]
      simp
    · rw [assocGet, if_neg he, assocDel, if_neg he]
      have hc2 : containsKey k es = true := by
        rw [containsKey, assocGet, if_neg he] at hc
        exact hc
      have hih := ih hnd2.2 hc2
      simp only [List.map_cons, List.flatten_cons]
      have h1 : (e.2 ++ (es.map (·.2)).flatten).Perm
          (e.2 ++ ((assocGet k es).getD [] ++ ((assocDel k es).map (·.2)).flatten)) :=
        List.Perm.append_left e.2 hih
      refine h1.trans ?_
      rw [← List.append_assoc, ← List.append_assoc]
      exact List.Perm.append_right _ List.perm_append_comm

theorem mem_groundIds (w : World) (i : ℕ) :
    i ∈ groundIds w ↔
      i < w.arena.length ∧ (w.arena.getD i defaultEntity).origin = Origin.ground := by
  simp [groundIds, List.mem_filter, List.mem_range]

theorem groundIds_nodup (w : World) : (groundIds w).Nodup :=
  (List.nodup_range _).filter _

theorem groundIds_congr (w w' : World) (hlen : w'.arena.length = w.arena.length)
    (horig : ∀ i, (w'.arena.getD i defaultEntity).origin = (w.arena.getD i defaultEntity).origin) :
    groundIds w' = groundIds w := by
  unfold groundIds
  rw [hlen]
  exact List.filter_congr (fun i _ => by rw [horig i])

theorem groundIds_decomp (w w' : World) (hlen : w.arena.length ≤ w'.arena.length)
    (horig : ∀ i < w.arena.length,
      (w'.arena.getD i defaultEntity).origin = (w.arena.getD i defaultEntity).origin) :
    groundIds w' = groundIds w ++ newGround w.arena.length w'.arena := by
  unfold groundIds newGround
  have hr : List.range w'.arena.length
      = List.range w.arena.length
        ++ List.range' w.arena.length (w'.arena.length - w.arena.length) := by
    have h2 := range'_split 0 w.arena.length (w'.arena.length - w.arena.length) (Nat.zero_le _)
    have h3 : w.arena.length + (w'.arena.length - w.arena.length) - 0 = w'.arena.length := by
      omega
    rw [h3, Nat.sub_zero] at h2
    rw [List.range_eq_range', h2, List.range_eq_range']
  rw [hr, List.filter_append]
  congr 1
  exact List.filter_congr (fun i hi => by
    rw [List.mem_range] at hi
    rw [horig i hi])

theorem pool_update_loaded (w : World) (L : List ((ℤ × ℤ) × List ℕ)) :
    ({ w with loaded_chunks := L } : World).chunk_pool = w.chunk_pool := rfl

theorem unload_contains (cp : ℤ × ℤ) (w : World) (k : ℤ × ℤ) :
    containsKey k (unload_chunk cp w).loaded_chunks
      = (containsKey k w.loaded_chunks && !decide (k = cp)) := by
  by_cases hc : containsKey cp w.loaded_chunks = true
  · rcases unload_spec cp w hc with ⟨a2, heq, -, -, -, -⟩
    rw [heq]
    exact containsKey_del cp k w.loaded_chunks
  · have hf : containsKey cp w.loaded_chunks = false := by simpa using hc
    rw [unload_not_loaded hf]
    by_cases hk : k = cp
    · subst hk
      rw [hf]
      rfl
    · simp [hk]

theorem generate_contains (ctx : Ctx) (cp : ℤ × ℤ) (w : World) (hw : BaseOk ctx w)
    (k : ℤ × ℤ) :
    containsKey k (generate_chunk ctx cp w).loaded_chunks
      = (containsKey k w.loaded_chunks || decide (k = cp)) := by
  rcases generate_chunk_spec ctx cp w hw with ⟨st, heq, hinv⟩
  rw [heq]
  dsimp only
  rw [hinv.loaded]
  exact containsKey_upd cp k st.2 w.loaded_chunks

theorem sInv_baseOk {ctx : Ctx} {w : World} (h : SInv ctx w) : BaseOk ctx w := by
  have hnd : (w.chunk_pool ++ chunkHandles w).Nodup :=
    h.part.nodup_iff.2 (groundIds_nodup w)
  refine ⟨(List.nodup_append.1 hnd).1, ?_, ?_, h.trees_enabled, h.coh⟩
  · intro e he
    have hm : e ∈ groundIds w := h.part.mem_iff.1 (List.mem_append.2 (Or.inl he))
    exact ((mem_groundIds w e).1 hm).1
  · intro e he
    have hm : e ∈ groundIds w := h.part.mem_iff.1 (List.mem_append.2 (Or.inl he))
    exact ((mem_groundIds w e).1 hm).2

theorem mem_chunkHandles_ground {ctx : Ctx} {w : World} (h : SInv ctx w) {e : ℕ}
    (he : e ∈ chunkHandles w) :
    e < w.arena.length ∧ (w.arena.getD e defaultEntity).origin = Origin.ground :=
  (mem_groundIds w e).1 (h.part.mem_iff.1 (List.mem_append.2 (Or.inr he)))

theorem sInv_empty (ctx : Ctx) : SInv ctx World.empty := by
  refine ⟨?_, ?_, ?_, ?_⟩
  · simp [World.empty, chunkHandles, groundIds]
  · simp [World.empty, keysOf]
  · intro i hi
    simp [World.empty] at hi
  · intro p hp
    simp [World.empty] at hp

theorem sInv_conservation {ctx : Ctx} {w : World} (h : SInv ctx w) : conservationEq w := by
  have hpart := h.part.length_eq
  rw [List.length_append] at hpart
  have hlen : (chunkHandles w).length = (w.loaded_chunks.map fun e => e.2.length).sum := by
    unfold chunkHandles
    rw [List.length_flatten, List.map_map]
    rfl
  unfold conservationEq
  rw [← hlen]
  exact hpart

theorem sInv_generate (ctx : Ctx) (cp : ℤ × ℤ) (w : World) (h : SInv ctx w)
    (hnc : containsKey cp w.loaded_chunks = false) :
    SInv ctx (generate_chunk ctx cp w) := by
  have hw : BaseOk ctx w := sInv_baseOk h
  rcases generate_chunk_spec ctx cp w hw with ⟨st, heq, hinv⟩
  have hpool : (generate_chunk ctx cp w).chunk_pool = st.1.chunk_pool := by rw [heq]
  have hloaded : (generate_chunk ctx cp w).loaded_chunks
      = assocUpd cp st.2 st.1.loaded_chunks := by rw [heq]
  have harena : (generate_chunk ctx cp w).arena = st.1.arena := by rw [heq]
  have hcache : (generate_chunk ctx cp w).noise_cache = st.1.noise_cache := by rw [heq]
  have hkey : cp ∉ keysOf w.loaded_chunks := by
    intro hm
    have hct := (containsKey_iff_mem_keys cp w.loaded_chunks).2 hm
    rw [hnc] at hct
    cases hct
  have hch : chunkHandles (generate_chunk ctx cp w)
      = (w.loaded_chunks.map (·.2)).flatten ++ st.2 := by
    unfold chunkHandles
    rw [hloaded, hinv.loaded, assocUpd_of_not_mem_keys st.2 hkey, List.map_append,
      List.flatten_append]
    simp
  have hgid : groundIds (generate_chunk ctx cp w)
      = groundIds w ++ newGround w.arena.length st.1.arena := by
    have hd := groundIds_decomp w st.1 hinv.alen hinv.old_orig
    rw [← hd]
    exact groundIds_congr st.1 (generate_chunk ctx cp w) (by rw [harena])
      (fun i => by rw [harena])
  have hcw : chunkHandles w = (w.loaded_chunks.map (·.2)).flatten := rfl
  refine ⟨?_, ?_, ?_, ?_⟩
  · rw [hpool, hch, hgid]
    have s1 : (st.1.chunk_pool ++ ((w.loaded_chunks.map (·.2)).flatten ++ st.2)).Perm
        (st.1.chunk_pool ++ st.2 ++ (w.loaded_chunks.map (·.2)).flatten) := by
      rw [List.append_assoc st.1.chunk_pool st.2]
      exact List.Perm.append_left st.1.chunk_pool List.perm_append_comm
    have s3 : (st.1.chunk_pool ++ st.2 ++ (w.loaded_chunks.map (·.2)).flatten).Perm
        ((w.chunk_pool ++ newGround w.arena.length st.1.arena)
          ++ (w.loaded_chunks.map (·.2)).flatten) :=
      hinv.perm.append_right _
    have s4 : ((w.chunk_pool ++ newGround w.arena.length st.1.arena)
          ++ (w.loaded_chunks.map (·.2)).flatten).Perm
        ((w.chunk_pool ++ (w.loaded_chunks.map (·.2)).flatten)
          ++ newGround w.arena.length st.1.arena) := by
      rw [List.append_assoc, List.append_assoc]
      exact List.Perm.append_left _ List.perm_append_comm
    have hpw : (w.chunk_pool ++ (w.loaded_chunks.map (·.2)).flatten).Perm (groundIds w) := by
      rw [← hcw]
      exact h.part
    exact s1.trans (s3.trans (s4.trans (hpw.append_right _)))
  · rw [hloaded, hinv.loaded, assocUpd_of_not_mem_keys st.2 hkey]
    have hk : keysOf (w.loaded_chunks ++ [(cp, st.2)]) = keysOf w.loaded_chunks ++ [cp] := by
      simp [keysOf]
    rw [hk, List.nodup_append]
    exact ⟨h.keys_nodup, List.nodup_singleton _,
      fun a ha hb => hkey ((List.mem_singleton.1 hb) ▸ ha)⟩
  · simp only [harena]
    exact hinv.trees_on
  · rw [hcache]
    exact hinv.coh

theorem sInv_unload (ctx : Ctx) (cp : ℤ × ℤ) (w : World) (h : SInv ctx w) :
    SInv ctx (unload_chunk cp w) := by
  by_cases hc : containsKey cp w.loaded_chunks = true
  · rcases unload_spec cp w hc with ⟨a2, heq, hlen, hunt, horig, -⟩
    have hpool : (unload_chunk cp w).chunk_pool
        = w.chunk_pool ++ lookupD cp w.loaded_chunks [] := by rw [heq]
    have hloaded : (unload_chunk cp w).loaded_chunks = assocDel cp w.loaded_chunks := by
      rw [heq]
    have harena : (unload_chunk cp w).arena = a2 := by rw [heq]
    have hcache : (unload_chunk cp w).noise_cache = w.noise_cache := by rw [heq]
    obtain ⟨v, hv⟩ : ∃ v, assocGet cp w.loaded_chunks = some v :=
      Option.isSome_iff_exists.1 hc
    have hlst : lookupD cp w.loaded_chunks [] = v := by
      rw [lookupD, hv]
      rfl
    have hvch : ∀ e ∈ v, e ∈ chunkHandles w := by
      intro e he
      unfold chunkHandles
      exact List.mem_flatten.2 ⟨v, assocGet_mem_snd hv, he⟩
    have hch : chunkHandles (unload_chunk cp w)
        = ((assocDel cp w.loaded_chunks).map (·.2)).flatten := by
      unfold chunkHandles
      rw [hloaded]
    have hgid : groundIds (unload_chunk cp w) = groundIds w :=
      groundIds_congr w (unload_chunk cp w) (by rw [harena]; exact hlen)
        (fun i => by rw [harena]; exact horig i)
    refine ⟨?_, ?_, ?_, ?_⟩
    · rw [hpool, hch, hgid, hlst, List.append_assoc]
      have hdel := assocDel_flatten_perm cp w.loaded_chunks h.keys_nodup hc
      rw [hv] at hdel
      refine (List.Perm.append_left w.chunk_pool hdel.symm).trans ?_
      exact h.part
    · rw [hloaded]
      have hs : ((assocDel cp w.loaded_chunks).map (fun e => e.1)).Sublist
          (w.loaded_chunks.map (fun e => e.1)) :=
        (assocDel_sublist cp w.loaded_chunks).map _
      exact List.Nodup.sublist hs h.keys_nodup
    · simp only [harena]
      intro i hi hng
      have hiw : i < w.arena.length := by
        rw [← hlen]
        exact hi
      have hngw : (w.arena.getD i defaultEntity).origin ≠ Origin.ground := by
        rw [← horig i]
        exact hng
      have hnl : i ∉ lookupD cp w.loaded_chunks [] := by
        intro hmem
        rw [hlst] at hmem
        exact hngw ((mem_chunkHandles_ground h (hvch i hmem)).2)
      rw [hunt i hnl]
      exact h.trees_enabled i hiw (by rw [← hunt i hnl]; exact hng)
    · rw [hcache]
      exact h.coh
  · rw [unload_not_loaded (by simpa using hc)]
    exact h

theorem sInv_applyOp (ctx : Ctx) (op : Op) (w : World) (h : SInv ctx w)
    (hs : safeOp w op) : SInv ctx (applyOp ctx op w) := by
  cases op with
  | gen cp => exact sInv_generate ctx cp w h hs
  | unl cp => exact sInv_unload ctx cp w h

theorem sInv_runOps (ctx : Ctx) : ∀ (ops : List Op) (w : World), SInv ctx w →
    safeOps ctx w ops → SInv ctx (runOps ctx ops w) := by
  intro ops
  induction ops with
  | nil => intro w h _; exact h
  | cons op ops ih =>
    intro w h hs
    rcases hs with ⟨h1, h2⟩
    show SInv ctx (runOps ctx ops (applyOp ctx op w))
    exact ih _ (sInv_applyOp ctx op w h h1) h2

/-! ### C3: pool conservation -/

/-- C3 (amended): after any sequence of generate/unload calls in which
`generate_chunk` is only invoked on coordinates that are not currently
loaded — the discipline `update_chunks` follows — every ground-cell handle
ever created is in exactly one place: the pool together with the loaded
chunks' handle lists is a duplicate-free permutation of the set of
ground-cell handles, and in particular pool size plus the handle count
across all loaded chunks equals the total number of handles ever created.
The unrestricted claim is refuted by `pool_conservation_cex`: a second
`generate_chunk` on an already-loaded coordinate replaces the chunk's
handle list wholesale and orphans the old handles. -/
theorem pool_conservation (ctx : Ctx) (ops : List Op)
    (hsafe : safeOps ctx World.empty ops) :
    ((runOps ctx ops World.empty).chunk_pool
        ++ chunkHandles (runOps ctx ops World.empty)).Perm
      (groundIds (runOps ctx ops World.empty)) ∧
    ((runOps ctx ops World.empty).chunk_pool
        ++ chunkHandles (runOps ctx ops World.empty)).Nodup ∧
    conservationEq (runOps ctx ops World.empty) := by
  have h := sInv_runOps ctx ops World.empty (sInv_empty ctx) hsafe
  exact ⟨h.part, h.part.nodup_iff.2 (groundIds_nodup _), sInv_conservation h⟩

/-- Witness for C3 on the safe sequence `[generate (0, 0)]`: the generate
call is safe because chunk `(0, 0)` is not loaded in the empty world
(discharged by `rfl`), and the conclusion partitions the 256 handles the
call creates between the pool and the loaded chunk. -/
theorem pool_conservation_witness :
    safeOps ctx0 World.empty [Op.gen (0, 0)] ∧
    (((runOps ctx0 [Op.gen (0, 0)] World.empty).chunk_pool
        ++ chunkHandles (runOps ctx0 [Op.gen (0, 0)] World.empty)).Perm
      (groundIds (runOps ctx0 [Op.gen (0, 0)] World.empty)) ∧
    ((runOps ctx0 [Op.gen (0, 0)] World.empty).chunk_pool
        ++ chunkHandles (runOps ctx0 [Op.gen (0, 0)] World.empty)).Nodup ∧
    conservationEq (runOps ctx0 [Op.gen (0, 0)] World.empty)) :=
  ⟨⟨rfl, True.intro⟩, pool_conservation ctx0 [Op.gen (0, 0)] ⟨rfl, True.intro⟩⟩

/-- C3 counterexample (refuting the claim for arbitrary call sequences):
calling `generate_chunk` twice on chunk `(0, 0)` without an unload in
between replaces `loaded_chunks[(0,0)]` wholesale, so the 256 handles of
the first generation end up neither in any loaded chunk nor in the pool:
the conservation count reads 256 on the left and 512 on the right. -/
theorem pool_conservation_cex :
    ¬ conservationEq (runOps ctx0 [Op.gen (0, 0), Op.gen (0, 0)] World.empty) := by
  show ¬ conservationEq (generate_chunk ctx0 (0, 0) (generate_chunk ctx0 (0, 0) World.empty))
  have hw0 : BaseOk ctx0 World.empty := baseOk_empty ctx0
  rcases generate_chunk_spec ctx0 (0, 0) World.empty hw0 with ⟨st1, heq1, hinv1⟩
  have hS1 : SInv ctx0 (generate_chunk ctx0 (0, 0) World.empty) :=
    sInv_generate ctx0 (0, 0) World.empty (sInv_empty ctx0) rfl
  have hw1 : BaseOk ctx0 (generate_chunk ctx0 (0, 0) World.empty) := sInv_baseOk hS1
  rcases generate_chunk_spec ctx0 (0, 0) (generate_chunk ctx0 (0, 0) World.empty) hw1 with
    ⟨st2, heq2, hinv2⟩
  have h1pool : (generate_chunk ctx0 (0, 0) World.empty).chunk_pool = st1.1.chunk_pool := by
    rw [heq1]
  have h1loaded : (generate_chunk ctx0 (0, 0) World.empty).loaded_chunks
      = assocUpd (0, 0) st1.2 st1.1.loaded_chunks := by rw [heq1]
  have h1arena : (generate_chunk ctx0 (0, 0) World.empty).arena = st1.1.arena := by rw [heq1]
  have h2pool : (generate_chunk ctx0 (0, 0) (generate_chunk ctx0 (0, 0) World.empty)).chunk_pool
      = st2.1.chunk_pool := by rw [heq2]
  have h2loaded :
      (generate_chunk ctx0 (0, 0) (generate_chunk ctx0 (0, 0) World.empty)).loaded_chunks
      = assocUpd (0, 0) st2.2 st2.1.loaded_chunks := by rw [heq2]
  have h2arena : (generate_chunk ctx0 (0, 0) (generate_chunk ctx0 (0, 0) World.empty)).arena
      = st2.1.arena := by rw [heq2]
  have hp1 : st1.1.chunk_pool = [] := by
    rcases hinv1.pool_pre with ⟨t, ht⟩
    have ht2 : st1.1.chunk_pool ++ t = [] := ht
    exact (List.append_eq_nil.1 ht2).1
  have hlen1 : st1.2.length = 256 := by
    have hc := congrArg List.length hinv1.configs
    rw [List.length_map, List.length_map] at hc
    rw [hc, cellList_length]
  have hlen2 : st2.2.length = 256 := by
    have hc := congrArg List.length hinv2.configs
    rw [List.length_map, List.length_map] at hc
    rw [hc, cellList_length]
  have hng1 : (newGround World.empty.arena.length st1.1.arena).length = 256 := by
    have hl := hinv1.perm.length_eq
    simp only [List.length_append, hp1, hlen1, List.length_nil] at hl
    have hemp : World.empty.chunk_pool.length = 0 := rfl
    omega
  have hg1 : (groundIds (generate_chunk ctx0 (0, 0) World.empty)).length = 256 := by
    have hd := groundIds_decomp World.empty st1.1 hinv1.alen hinv1.old_orig
    have hgc : groundIds (generate_chunk ctx0 (0, 0) World.empty) = groundIds st1.1 :=
      groundIds_congr st1.1 (generate_chunk ctx0 (0, 0) World.empty) (by rw [h1arena])
        (fun i => by rw [h1arena])
    rw [hgc, hd, List.length_append]
    have hge : (groundIds World.empty).length = 0 := rfl
    omega
  have hp2 : st2.1.chunk_pool = [] := by
    rcases hinv2.pool_pre with ⟨t, ht⟩
    have ht2 : st2.1.chunk_pool ++ t = [] := by rw [ht, h1pool, hp1]
    exact (List.append_eq_nil.1 ht2).1
  have hng2 :
      (newGround (generate_chunk ctx0 (0, 0) World.empty).arena.length st2.1.arena).length
        = 256 := by
    have hl := hinv2.perm.length_eq
    simp only [List.length_append, hp2, hlen2, h1pool, hp1, List.length_nil] at hl
    omega
  have hg2 :
      (groundIds (generate_chunk ctx0 (0, 0) (generate_chunk ctx0 (0, 0) World.empty))).length
        = 512 := by
    have hd := groundIds_decomp (generate_chunk ctx0 (0, 0) World.empty) st2.1 hinv2.alen
      hinv2.old_orig
    have hgc :
        groundIds (generate_chunk ctx0 (0, 0) (generate_chunk ctx0 (0, 0) World.empty))
          = groundIds st2.1 :=
      groundIds_congr st2.1 (generate_chunk ctx0 (0, 0) (generate_chunk ctx0 (0, 0) World.empty))
        (by rw [h2arena]) (fun i => by rw [h2arena])
    rw [hgc, hd, List.length_append, hg1]
    omega
  have hL1 : (generate_chunk ctx0 (0, 0) World.empty).loaded_chunks = [((0, 0), st1.2)] := by
    rw [h1loaded, hinv1.loaded]
    rfl
  have hL2 :
      (generate_chunk ctx0 (0, 0) (generate_chunk ctx0 (0, 0) World.empty)).loaded_chunks
        = [((0, 0), st2.2)] := by
    rw [h2loaded, hinv2.loaded, hL1]
    simp [assocUpd]
  intro hcons
  unfold conservationEq at hcons
  simp only [h2pool, hp2, List.length_nil, hL2, List.map_cons, List.map_nil, List.sum_cons,
    List.sum_nil, hlen2, hg2] at hcons
  omega

/-! ### C10: regeneration after unload is deterministic for ground cells -/

theorem generate_config (ctx : Ctx) (cp : ℤ × ℤ) (w : World) (hw : BaseOk ctx w) :
    (lookupD cp (generate_chunk ctx cp w).loaded_chunks []).map
        (fun e => obsConfig ((generate_chunk ctx cp w).arena.getD e defaultEntity))
      = cellList.map (pureCellConfig ctx w.biome_map cp) := by
  rcases generate_chunk_spec ctx cp w hw with ⟨st, heq, hinv⟩
  have hloaded : (generate_chunk ctx cp w).loaded_chunks
      = assocUpd cp st.2 st.1.loaded_chunks := by rw [heq]
  have harena : (generate_chunk ctx cp w).arena = st.1.arena := by rw [heq]
  rw [hloaded, lookupD_upd_self]
  simp only [harena]
  exact hinv.configs

theorem noise_update3 (w : World) (L : List ((ℤ × ℤ) × List ℕ)) (P : List ℕ)
    (A : List EntityRec) :
    ({ w with loaded_chunks := L, chunk_pool := P, arena := A } : World).noise_cache
      = w.noise_cache := rfl

theorem bio_update3 (w : World) (L : List ((ℤ × ℤ) × List ℕ)) (P : List ℕ)
    (A : List EntityRec) :
    ({ w with loaded_chunks := L, chunk_pool := P, arena := A } : World).biome_map
      = w.biome_map := rfl

theorem baseOk_unload_generate (ctx : Ctx) (cp : ℤ × ℤ) (w : World) (hw : BaseOk ctx w) :
    BaseOk ctx (unload_chunk cp (generate_chunk ctx cp w)) ∧
    (unload_chunk cp (generate_chunk ctx cp w)).biome_map = w.biome_map := by
  rcases generate_chunk_spec ctx cp w hw with ⟨st, heq, hinv⟩
  have hload1 : (generate_chunk ctx cp w).loaded_chunks
      = assocUpd cp st.2 st.1.loaded_chunks := by rw [heq]
  have harena1 : (generate_chunk ctx cp w).arena = st.1.arena := by rw [heq]
  have hpool1 : (generate_chunk ctx cp w).chunk_pool = st.1.chunk_pool := by rw [heq]
  have hcache1 : (generate_chunk ctx cp w).noise_cache = st.1.noise_cache := by rw [heq]
  have hbio1 : (generate_chunk ctx cp w).biome_map = st.1.biome_map := by rw [heq]
  have hc : containsKey cp (generate_chunk ctx cp w).loaded_chunks = true := by
    rw [hload1]
    exact containsKey_upd_self _ _ _
  have hlst : lookupD cp (generate_chunk ctx cp w).loaded_chunks [] = st.2 := by
    rw [hload1]
    exact lookupD_upd_self _ _ _ _
  rcases unload_spec cp (generate_chunk ctx cp w) hc with ⟨a2, hueq, hulen, huunt, huorig, -⟩
  have hupool : (unload_chunk cp (generate_chunk ctx cp w)).chunk_pool
      = (generate_chunk ctx cp w).chunk_pool
        ++ lookupD cp (generate_chunk ctx cp w).loaded_chunks [] := by rw [hueq]
  have huarena : (unload_chunk cp (generate_chunk ctx cp w)).arena = a2 := by rw [hueq]
  have hucache : (unload_chunk cp (generate_chunk ctx cp w)).noise_cache
      = (generate_chunk ctx cp w).noise_cache :=
    (congrArg World.noise_cache hueq).trans (noise_update3 (generate_chunk ctx cp w)
      (assocDel cp (generate_chunk ctx cp w).loaded_chunks)
      ((generate_chunk ctx cp w).chunk_pool
        ++ lookupD cp (generate_chunk ctx cp w).loaded_chunks []) a2)
  have hubio : (unload_chunk cp (generate_chunk ctx cp w)).biome_map
      = (generate_chunk ctx cp w).biome_map :=
    (congrArg World.biome_map hueq).trans (bio_update3 (generate_chunk ctx cp w)
      (assocDel cp (generate_chunk ctx cp w).loaded_chunks)
      ((generate_chunk ctx cp w).chunk_pool
        ++ lookupD cp (generate_chunk ctx cp w).loaded_chunks []) a2)
  rcases hinv.pool_pre with ⟨t, ht⟩
  have hmemw : ∀ e ∈ st.1.chunk_pool, e ∈ w.chunk_pool := by
    intro e he
    rw [← ht]
    exact List.mem_append.2 (Or.inl he)
  have halen : a2.length = st.1.arena.length := by
    rw [hulen, harena1]
  have hgetD : ∀ i, i ∉ st.2 → a2.getD i defaultEntity = st.1.arena.getD i defaultEntity := by
    intro i hi
    rw [← harena1]
    apply huunt
    rw [hlst]
    exact hi
  have horig2 : ∀ i, (a2.getD i defaultEntity).origin
      = (st.1.arena.getD i defaultEntity).origin := by
    intro i
    rw [← harena1]
    exact huorig i
  refine ⟨⟨?_, ?_, ?_, ?_, ?_⟩, by rw [hubio, hbio1, hinv.biome]⟩
  · rw [hupool, hpool1, hlst, List.nodup_append]
    refine ⟨?_, hinv.acc_nodup, hinv.pool_disj⟩
    exact List.Nodup.sublist (ht ▸ List.sublist_append_left st.1.chunk_pool t) hw.pool_nodup
  · intro e he
    rw [hupool, hpool1, hlst] at he
    rw [huarena, halen]
    rcases List.mem_append.1 he with he | he
    · exact Nat.lt_of_lt_of_le (hw.pool_lt e (hmemw e he)) hinv.alen
    · exact hinv.acc_lt e he
  · intro e he
    rw [hupool, hpool1, hlst] at he
    rw [huarena, horig2]
    rcases List.mem_append.1 he with he | he
    · rw [hinv.pool_rec e he]
      exact hw.pool_ground e (hmemw e he)
    · exact hinv.acc_ground e he
  · intro i hi hng
    rw [huarena, halen] at hi
    rw [huarena, horig2] at hng
    have hnmem : i ∉ st.2 := by
      intro hm
      exact hng (hinv.acc_ground i hm)
    rw [huarena, hgetD i hnmem]
    exact hinv.trees_on i hi hng
  · rw [hucache, hcache1]
    exact hinv.coh

/-- C10: with the biome map and the noise source fixed, regenerating a
chunk after unloading it reproduces the ground cells exactly: both the
first and the second generation assign every one of the 256 cells the same
position (hence the same height), the same color and the same collider
decision — namely the pure per-cell configuration computed from the biome
map and the noise function.  (Tree placement, which draws fresh
randomness, is outside this observable.) -/
theorem regen_deterministic (ctx : Ctx) (cp : ℤ × ℤ) (w : World) (hw : BaseOk ctx w) :
    (lookupD cp (generate_chunk ctx cp w).loaded_chunks []).map
        (fun e => obsConfig ((generate_chunk ctx cp w).arena.getD e defaultEntity))
      = cellList.map (pureCellConfig ctx w.biome_map cp) ∧
    (lookupD cp
          (generate_chunk ctx cp (unload_chunk cp (generate_chunk ctx cp w))).loaded_chunks
          []).map
        (fun e => obsConfig
          ((generate_chunk ctx cp (unload_chunk cp (generate_chunk ctx cp w))).arena.getD e
            defaultEntity))
      = cellList.map (pureCellConfig ctx w.biome_map cp) := by
  rcases baseOk_unload_generate ctx cp w hw with ⟨hb, hbio⟩
  refine ⟨generate_config ctx cp w hw, ?_⟩
  have h2 := generate_config ctx cp (unload_chunk cp (generate_chunk ctx cp w)) hb
  rw [hbio] at h2
  exact h2

/-- Witness for C10 at the empty base world with the zero context. -/
theorem regen_deterministic_witness :
    BaseOk ctx0 World.empty ∧
    ((lookupD (0, 0) (generate_chunk ctx0 (0, 0) World.empty).loaded_chunks []).map
        (fun e => obsConfig
          ((generate_chunk ctx0 (0, 0) World.empty).arena.getD e defaultEntity))
      = cellList.map (pureCellConfig ctx0 World.empty.biome_map (0, 0)) ∧
    (lookupD (0, 0)
          (generate_chunk ctx0 (0, 0)
            (unload_chunk (0, 0) (generate_chunk ctx0 (0, 0) World.empty))).loaded_chunks
          []).map
        (fun e => obsConfig
          ((generate_chunk ctx0 (0, 0)
            (unload_chunk (0, 0) (generate_chunk ctx0 (0, 0) World.empty))).arena.getD e
            defaultEntity))
      = cellList.map (pureCellConfig ctx0 World.empty.biome_map (0, 0))) :=
  ⟨baseOk_empty ctx0, regen_deterministic ctx0 (0, 0) World.empty (baseOk_empty ctx0)⟩

/-! ### C5: streaming windows -/

theorem update_chunks_eq (ctx : Ctx) (pos : ℚ × ℚ × ℚ) (w : World) :
    update_chunks ctx pos w
      = unlPass (get_chunk pos)
          (keysOf (genPass ctx (winList (get_chunk pos)) w).loaded_chunks)
          (genPass ctx (winList (get_chunk pos)) w) := by
  unfold update_chunks genPass unlPass
  rfl

theorem mem_intRangeL (a : ℤ) (n : ℕ) (x : ℤ) :
    x ∈ intRangeL a n ↔ a ≤ x ∧ x < a + n := by
  unfold intRangeL
  constructor
  · intro hx
    rcases List.mem_map.1 hx with ⟨i, hi, rfl⟩
    rw [List.mem_range] at hi
    omega
  · rintro ⟨h1, h2⟩
    refine List.mem_map.2 ⟨(x - a).toNat, ?_, ?_⟩
    · rw [List.mem_range]
      omega
    · omega

theorem mem_winList (pc c : ℤ × ℤ) :
    c ∈ winList pc ↔ (c.1 - pc.1).natAbs ≤ 4 ∧ (c.2 - pc.2).natAbs ≤ 4 := by
  unfold winList
  simp only [List.mem_flatMap, List.mem_map]
  constructor
  · rintro ⟨cx, hcx, cz, hcz, rfl⟩
    rw [mem_intRangeL] at hcx hcz
    dsimp only
    omega
  · rintro ⟨h1, h2⟩
    refine ⟨c.1, ?_, c.2, ?_, rfl⟩
    · rw [mem_intRangeL]
      omega
    · rw [mem_intRangeL]
      omega

theorem farChunk_false_iff (c pc : ℤ × ℤ) :
    farChunk c pc = false ↔ (c.1 - pc.1).natAbs ≤ 4 ∧ (c.2 - pc.2).natAbs ≤ 4 := by
  unfold farChunk
  rw [Bool.or_eq_false_iff, decide_eq_false_iff_not, decide_eq_false_iff_not]
  omega

theorem get_chunk_origin : get_chunk (0, 0, 0) = (0, 0) := by
  unfold get_chunk
  have h1 : ((0 : ℚ), (0 : ℚ), (0 : ℚ)).1 / 16 = ((0 : ℤ) : ℚ) := by norm_num
  rw [h1, Int.floor_intCast]

theorem get_chunk_moved : get_chunk (160, 0, 0) = (10, 0) := by
  unfold get_chunk
  have h1 : ((160 : ℚ), (0 : ℚ), (0 : ℚ)).1 / 16 = ((10 : ℤ) : ℚ) := by norm_num
  have h2 : ((160 : ℚ), (0 : ℚ), (0 : ℚ)).2.2 / 16 = ((0 : ℤ) : ℚ) := by norm_num
  rw [h1, h2, Int.floor_intCast, Int.floor_intCast]

theorem genPass_inv (ctx : Ctx) : ∀ (cs : List (ℤ × ℤ)) (w : World), SInv ctx w →
    SInv ctx (genPass ctx cs w) ∧
    ∀ k, containsKey k (genPass ctx cs w).loaded_chunks = true ↔
      (containsKey k w.loaded_chunks = true ∨ k ∈ cs) := by
  intro cs
  induction cs with
  | nil =>
    intro w h
    have hnil : genPass ctx [] w = w := rfl
    rw [hnil]
    exact ⟨h, fun k => by simp⟩
  | cons c cs ih =>
    intro w h
    have hstep : genPass ctx (c :: cs) w
        = genPass ctx cs
            (if containsKey c w.loaded_chunks then w else generate_chunk ctx c w) := by
      unfold genPass
      rw [List.foldl_cons]
    by_cases hc : containsKey c w.loaded_chunks = true
    · rw [hstep, if_pos hc]
      rcases ih w h with ⟨hS, hk⟩
      refine ⟨hS, fun k => ?_⟩
      rw [hk k]
      constructor
      · rintro (h1 | h1)
        · exact Or.inl h1
        · exact Or.inr (List.mem_cons_of_mem c h1)
      · rintro (h1 | h1)
        · exact Or.inl h1
        · rcases List.mem_cons.1 h1 with rfl | h1
          · exact Or.inl hc
          · exact Or.inr h1
    · have hcf : containsKey c w.loaded_chunks = false := by simpa using hc
      rw [hstep, if_neg hc]
      rcases ih (generate_chunk ctx c w) (sInv_generate ctx c w h hcf) with ⟨hS, hk⟩
      refine ⟨hS, fun k => ?_⟩
      rw [hk k, generate_contains ctx c w (sInv_baseOk h) k]
      simp only [Bool.or_eq_true, decide_eq_true_eq, List.mem_cons]
      tauto

theorem unlPass_inv (ctx : Ctx) (pc : ℤ × ℤ) :
    ∀ (ks : List (ℤ × ℤ)) (w : World), SInv ctx w →
    SInv ctx (unlPass pc ks w) ∧
    ∀ k, containsKey k (unlPass pc ks w).loaded_chunks = true ↔
      (containsKey k w.loaded_chunks = true ∧ (farChunk k pc = true → k ∉ ks)) := by
  intro ks
  induction ks with
  | nil =>
    intro w h
    have hnil : unlPass pc [] w = w := rfl
    rw [hnil]
    exact ⟨h, fun k => by simp⟩
  | cons c ks ih =>
    intro w h
    have hstep : unlPass pc (c :: ks) w
        = unlPass pc ks (if farChunk c pc then unload_chunk c w else w) := by
      unfold unlPass
      rw [List.foldl_cons]
    by_cases hf : farChunk c pc = true
    · rw [hstep, if_pos hf]
      rcases ih (unload_chunk c w) (sInv_unload ctx c w h) with ⟨hS, hk⟩
      refine ⟨hS, fun k => ?_⟩
      rw [hk k, unload_contains c w k]
      simp only [Bool.and_eq_true, Bool.not_eq_true', decide_eq_false_iff_not, List.mem_cons]
      constructor
      · rintro ⟨⟨h1, h2⟩, h3⟩
        refine ⟨h1, fun hfk hm => ?_⟩
        rcases hm with rfl | hm
        · exact h2 rfl
        · exact h3 hfk hm
      · rintro ⟨h1, h2⟩
        by_cases hkc : k = c
        · subst hkc
          exact absurd (Or.inl rfl) (h2 hf)
        · exact ⟨⟨h1, hkc⟩, fun hfk hm => h2 hfk (Or.inr hm)⟩
    · rw [hstep, if_neg hf]
      have hff : farChunk c pc = false := by simpa using hf
      rcases ih w h with ⟨hS, hk⟩
      refine ⟨hS, fun k => ?_⟩
      rw [hk k]
      constructor
      · rintro ⟨h1, h2⟩
        refine ⟨h1, fun hfk hm => ?_⟩
        rcases List.mem_cons.1 hm with rfl | hm
        · exact Bool.noConfusion (hfk.symm.trans hff)
        · exact h2 hfk hm
      · rintro ⟨h1, h2⟩
        exact ⟨h1, fun hfk hm => h2 hfk (List.mem_cons_of_mem c hm)⟩

theorem genPass_lookup (ctx : Ctx) : ∀ (cs : List (ℤ × ℤ)) (w : World), SInv ctx w →
    ∀ k, containsKey k w.loaded_chunks = true →
      assocGet k (genPass ctx cs w).loaded_chunks = assocGet k w.loaded_chunks := by
  intro cs
  induction cs with
  | nil =>
    intro w _ k _
    have hnil : genPass ctx [] w = w := rfl
    rw [hnil]
  | cons c cs ih =>
    intro w h k hk
    have hstep : genPass ctx (c :: cs) w
        = genPass ctx cs
            (if containsKey c w.loaded_chunks then w else generate_chunk ctx c w) := by
      unfold genPass
      rw [List.foldl_cons]
    by_cases hc : containsKey c w.loaded_chunks = true
    · rw [hstep, if_pos hc]
      exact ih w h k hk
    · have hcf : containsKey c w.loaded_chunks = false := by simpa using hc
      have hkc : k ≠ c := by
        intro hkc
        rw [hkc, hcf] at hk
        cases hk
      have hgen : assocGet k (generate_chunk ctx c w).loaded_chunks
          = assocGet k w.loaded_chunks := by
        rcases generate_chunk_spec ctx c w (sInv_baseOk h) with ⟨st, heq, hinv⟩
        have hl : (generate_chunk ctx c w).loaded_chunks
            = assocUpd c st.2 st.1.loaded_chunks := by rw [heq]
        rw [hl, hinv.loaded]
        exact assocGet_upd_ne hkc st.2 w.loaded_chunks
      have hk2 : containsKey k (generate_chunk ctx c w).loaded_chunks = true := by
        rw [containsKey, hgen]
        exact hk
      rw [hstep, if_neg hc]
      rw [ih (generate_chunk ctx c w) (sInv_generate ctx c w h hcf) k hk2]
      exact hgen

theorem unlPass_pool (pc : ℤ × ℤ) : ∀ (ks : List (ℤ × ℤ)) (w : World),
    (∀ e ∈ w.chunk_pool, e ∈ (unlPass pc ks w).chunk_pool) ∧
    (∀ k, farChunk k pc = true → k ∈ ks → containsKey k w.loaded_chunks = true →
      ∀ e ∈ lookupD k w.loaded_chunks [], e ∈ (unlPass pc ks w).chunk_pool) := by
  intro ks
  induction ks with
  | nil =>
    intro w
    refine ⟨fun e he => ?_, fun k _ hk _ _ _ => absurd hk (List.not_mem_nil k)⟩
    have hnil : unlPass pc [] w = w := rfl
    rw [hnil]
    exact he
  | cons c ks ih =>
    intro w
    have hstep : unlPass pc (c :: ks) w
        = unlPass pc ks (if farChunk c pc then unload_chunk c w else w) := by
      unfold unlPass
      rw [List.foldl_cons]
    have hpoolstep : ∀ e ∈ w.chunk_pool,
        e ∈ (if farChunk c pc then unload_chunk c w else w).chunk_pool := by
      intro e he
      by_cases hf : farChunk c pc = true
      · rw [if_pos hf]
        by_cases hcl : containsKey c w.loaded_chunks = true
        · rcases unload_spec c w hcl with ⟨a2, hueq, -, -, -, -⟩
          have hp : (unload_chunk c w).chunk_pool
              = w.chunk_pool ++ lookupD c w.loaded_chunks [] := by rw [hueq]
          rw [hp]
          exact List.mem_append.2 (Or.inl he)
        · rw [unload_not_loaded (by simpa using hcl)]
          exact he
      · rw [if_neg hf]
        exact he
    refine ⟨fun e he => ?_, fun k hfar hkmem hck e he => ?_⟩
    · rw [hstep]
      exact (ih _).1 e (hpoolstep e he)
    · rw [hstep]
      by_cases hkc : k = c
      · subst hkc
        rw [if_pos hfar]
        rcases unload_spec k w hck with ⟨a2, hueq, -, -, -, -⟩
        have hp : (unload_chunk k w).chunk_pool
            = w.chunk_pool ++ lookupD k w.loaded_chunks [] := by rw [hueq]
        refine (ih _).1 e ?_
        rw [hp]
        exact List.mem_append.2 (Or.inr he)
      · have hkmem2 : k ∈ ks := by
          rcases List.mem_cons.1 hkmem with hkeq | hkmem2
          · exact absurd hkeq hkc
          · exact hkmem2
        have hga : assocGet k
            (if farChunk c pc then unload_chunk c w else w).loaded_chunks
            = assocGet k w.loaded_chunks := by
          by_cases hf : farChunk c pc = true
          · rw [if_pos hf]
            by_cases hcl : containsKey c w.loaded_chunks = true
            · rcases unload_spec c w hcl with ⟨a2, hueq, -, -, -, -⟩
              have hl : (unload_chunk c w).loaded_chunks = assocDel c w.loaded_chunks := by
                rw [hueq]
              rw [hl]
              exact assocGet_del_ne hkc w.loaded_chunks
            · rw [unload_not_loaded (by simpa using hcl)]
          · rw [if_neg hf]
        refine (ih _).2 k hfar hkmem2 ?_ e ?_
        · rw [containsKey, hga]
          exact hck
        · rw [lookupD, hga]
          exact he

/-- C5: one streaming tick with the observer at the origin loads exactly
the 9 × 9 Chebyshev window of chunks around chunk `(0, 0)`; after the
observer moves to world `x = 160` (chunk `(10, 0)`) and one more tick
runs, exactly the 9 × 9 window around `(10, 0)` is loaded — every chunk of
the first window is unloaded — the handle partition holds in the final
state (the pool together with the loaded chunks' handle lists is a
duplicate-free permutation of all ground-cell handles ever created), and
the ground-cell handles of the unloaded chunks are back in the pool: every
handle of every chunk loaded after the first tick — all of which the
second tick unloads — is in the final pool. -/
theorem streaming_window (ctx : Ctx) :
    (∀ c : ℤ × ℤ,
      containsKey c (update_chunks ctx (0, 0, 0) World.empty).loaded_chunks = true ↔
        (c.1.natAbs ≤ 4 ∧ c.2.natAbs ≤ 4)) ∧
    (∀ c : ℤ × ℤ,
      containsKey c
          (update_chunks ctx (160, 0, 0)
            (update_chunks ctx (0, 0, 0) World.empty)).loaded_chunks = true ↔
        ((c.1 - 10).natAbs ≤ 4 ∧ c.2.natAbs ≤ 4)) ∧
    ((update_chunks ctx (160, 0, 0) (update_chunks ctx (0, 0, 0) World.empty)).chunk_pool
        ++ chunkHandles (update_chunks ctx (160, 0, 0)
            (update_chunks ctx (0, 0, 0) World.empty))).Perm
      (groundIds (update_chunks ctx (160, 0, 0) (update_chunks ctx (0, 0, 0) World.empty)))
    ∧ ((update_chunks ctx (160, 0, 0) (update_chunks ctx (0, 0, 0) World.empty)).chunk_pool
        ++ chunkHandles (update_chunks ctx (160, 0, 0)
            (update_chunks ctx (0, 0, 0) World.empty))).Nodup
    ∧ (∀ c : ℤ × ℤ,
      containsKey c (update_chunks ctx (0, 0, 0) World.empty).loaded_chunks = true →
      ∀ e ∈ lookupD c (update_chunks ctx (0, 0, 0) World.empty).loaded_chunks [],
        e ∈ (update_chunks ctx (160, 0, 0)
          (update_chunks ctx (0, 0, 0) World.empty)).chunk_pool) := by
  have hu1 : update_chunks ctx (0, 0, 0) World.empty
      = unlPass (0, 0) (keysOf (genPass ctx (winList (0, 0)) World.empty).loaded_chunks)
          (genPass ctx (winList (0, 0)) World.empty) := by
    rw [update_chunks_eq, get_chunk_origin]
  rcases genPass_inv ctx (winList (0, 0)) World.empty (sInv_empty ctx) with ⟨hS1, hk1⟩
  have hk1b : ∀ k, containsKey k (genPass ctx (winList (0, 0)) World.empty).loaded_chunks
      = true ↔ k ∈ winList (0, 0) := by
    intro k
    rw [hk1 k]
    have hemp : containsKey k World.empty.loaded_chunks = false := rfl
    simp [hemp]
  rcases unlPass_inv ctx (0, 0)
      (keysOf (genPass ctx (winList (0, 0)) World.empty).loaded_chunks)
      (genPass ctx (winList (0, 0)) World.empty) hS1 with ⟨hS2, hk2⟩
  have hW1 : ∀ k, containsKey k (update_chunks ctx (0, 0, 0) World.empty).loaded_chunks
      = true ↔ k ∈ winList (0, 0) := by
    intro k
    rw [hu1, hk2 k, hk1b k]
    constructor
    · rintro ⟨h1, -⟩
      exact h1
    · intro h1
      have hnf : farChunk k (0, 0) = false := by
        rw [farChunk_false_iff]
        have hm := (mem_winList (0, 0) k).1 h1
        show (k.1 - 0).natAbs ≤ 4 ∧ (k.2 - 0).natAbs ≤ 4
        have hm1 : (k.1 - 0).natAbs ≤ 4 ∧ (k.2 - 0).natAbs ≤ 4 := hm
        exact hm1
      exact ⟨h1, fun hfar => Bool.noConfusion (hfar.symm.trans hnf)⟩
  have conj1 : ∀ c : ℤ × ℤ,
      containsKey c (update_chunks ctx (0, 0, 0) World.empty).loaded_chunks = true ↔
        (c.1.natAbs ≤ 4 ∧ c.2.natAbs ≤ 4) := by
    intro c
    rw [hW1 c, mem_winList]
    show (c.1 - 0).natAbs ≤ 4 ∧ (c.2 - 0).natAbs ≤ 4 ↔ _
    omega
  have hSW1 : SInv ctx (update_chunks ctx (0, 0, 0) World.empty) := by
    rw [hu1]
    exact hS2
  have hu2 : update_chunks ctx (160, 0, 0) (update_chunks ctx (0, 0, 0) World.empty)
      = unlPass (10, 0)
          (keysOf (genPass ctx (winList (10, 0))
            (update_chunks ctx (0, 0, 0) World.empty)).loaded_chunks)
          (genPass ctx (winList (10, 0)) (update_chunks ctx (0, 0, 0) World.empty)) := by
    rw [update_chunks_eq, get_chunk_moved]
  rcases genPass_inv ctx (winList (10, 0)) (update_chunks ctx (0, 0, 0) World.empty) hSW1
    with ⟨hS3, hk3⟩
  rcases unlPass_inv ctx (10, 0)
      (keysOf (genPass ctx (winList (10, 0))
        (update_chunks ctx (0, 0, 0) World.empty)).loaded_chunks)
      (genPass ctx (winList (10, 0)) (update_chunks ctx (0, 0, 0) World.empty)) hS3
    with ⟨hS4, hk4⟩
  have conj2 : ∀ c : ℤ × ℤ,
      containsKey c
          (update_chunks ctx (160, 0, 0)
            (update_chunks ctx (0, 0, 0) World.empty)).loaded_chunks = true ↔
        ((c.1 - 10).natAbs ≤ 4 ∧ c.2.natAbs ≤ 4) := by
    intro c
    rw [hu2, hk4 c]
    constructor
    · rintro ⟨h1, h2⟩
      have h1b := h1
      rw [hk3 c, hW1 c] at h1b
      rcases h1b with h1b | h1b
      · have hw1 := (mem_winList (0, 0) c).1 h1b
        have hw1b : (c.1 - 0).natAbs ≤ 4 ∧ (c.2 - 0).natAbs ≤ 4 := hw1
        have hfar : farChunk c (10, 0) = true := by
          unfold farChunk
          simp only [Bool.or_eq_true, decide_eq_true_eq]
          refine Or.inl ?_
          show 4 < (c.1 - 10).natAbs
          omega
        have hmem : c ∈ keysOf (genPass ctx (winList (10, 0))
            (update_chunks ctx (0, 0, 0) World.empty)).loaded_chunks :=
          (containsKey_iff_mem_keys _ _).1 h1
        exact absurd hmem (h2 hfar)
      · have hw2 := (mem_winList (10, 0) c).1 h1b
        have hw2b : (c.1 - 10).natAbs ≤ 4 ∧ (c.2 - 0).natAbs ≤ 4 := hw2
        omega
    · intro hc2
      have hmem2 : c ∈ winList (10, 0) := by
        rw [mem_winList]
        show (c.1 - 10).natAbs ≤ 4 ∧ (c.2 - 0).natAbs ≤ 4
        omega
      refine ⟨?_, fun hfar => ?_⟩
      · rw [hk3 c]
        exact Or.inr hmem2
      · have hff : farChunk c (10, 0) = false := by
          rw [farChunk_false_iff]
          show (c.1 - 10).natAbs ≤ 4 ∧ (c.2 - 0).natAbs ≤ 4
          omega
        exact Bool.noConfusion (hfar.symm.trans hff)
  have hSW2 : SInv ctx (update_chunks ctx (160, 0, 0)
      (update_chunks ctx (0, 0, 0) World.empty)) := by
    rw [hu2]
    exact hS4
  have conj5 : ∀ c : ℤ × ℤ,
      containsKey c (update_chunks ctx (0, 0, 0) World.empty).loaded_chunks = true →
      ∀ e ∈ lookupD c (update_chunks ctx (0, 0, 0) World.empty).loaded_chunks [],
        e ∈ (update_chunks ctx (160, 0, 0)
          (update_chunks ctx (0, 0, 0) World.empty)).chunk_pool := by
    intro c hc e he
    have hcw : c ∈ winList (0, 0) := (hW1 c).1 hc
    have hfar : farChunk c (10, 0) = true := by
      unfold farChunk
      simp only [Bool.or_eq_true, decide_eq_true_eq]
      refine Or.inl ?_
      show 4 < (c.1 - 10).natAbs
      have hm : (c.1 - 0).natAbs ≤ 4 ∧ (c.2 - 0).natAbs ≤ 4 := (mem_winList (0, 0) c).1 hcw
      omega
    have hga : assocGet c (genPass ctx (winList (10, 0))
          (update_chunks ctx (0, 0, 0) World.empty)).loaded_chunks
        = assocGet c (update_chunks ctx (0, 0, 0) World.empty).loaded_chunks :=
      genPass_lookup ctx (winList (10, 0)) (update_chunks ctx (0, 0, 0) World.empty)
        hSW1 c hc
    have hck2 : containsKey c (genPass ctx (winList (10, 0))
        (update_chunks ctx (0, 0, 0) World.empty)).loaded_chunks = true := by
      rw [containsKey, hga]
      exact hc
    have hmemk : c ∈ keysOf (genPass ctx (winList (10, 0))
        (update_chunks ctx (0, 0, 0) World.empty)).loaded_chunks :=
      (containsKey_iff_mem_keys _ _).1 hck2
    rw [hu2]
    refine (unlPass_pool (10, 0)
        (keysOf (genPass ctx (winList (10, 0))
          (update_chunks ctx (0, 0, 0) World.empty)).loaded_chunks)
        (genPass ctx (winList (10, 0)) (update_chunks ctx (0, 0, 0) World.empty))).2
      c hfar hmemk hck2 e ?_
    rw [lookupD, hga]
    exact he
  exact ⟨conj1, conj2, hSW2.part, hSW2.part.nodup_iff.2 (groundIds_nodup _), conj5⟩

end MineKrugger
